import Mathlib

/-!
# Verification of the NativeScript css-parser (`src/index.ts`)

A shallow embedding of the tokenizer–parser pipeline of `src/index.ts`
(the newest draft, which the specification declares authoritative).
JS strings are modelled as `List Char` indexed by code point (the sources
under test are ASCII, where code-unit and code-point indexing agree);
JS `undefined`/`null` results are modelled with `Option`; the two `throw`
sites are modelled with `Except String`.  The regular expressions of the
source are hand-compiled into deterministic scanners that implement the
JS backtracking semantics (documented at each definition).
-/

namespace CssJs

/-- JS strings are lists of characters. -/
abbrev Str := List Char

/-- The JS `\s` character class (as used by `whitespaceRegEx = /[\s\t\n\r\f]*/`
and the `\s?` of the escape regexes), restricted to Unicode scalar values:
tab, LF, VT, FF, CR, space and the Unicode space/format characters. -/
def isJsWs (c : Char) : Bool :=
  c.toNat = 9 || c.toNat = 10 || c.toNat = 11 || c.toNat = 12 || c.toNat = 13 ||
  c.toNat = 32 || c.toNat = 0xA0 || c.toNat = 0x1680 ||
  (0x2000 ≤ c.toNat && c.toNat ≤ 0x200A) ||
  c.toNat = 0x2028 || c.toNat = 0x2029 || c.toNat = 0x202F || c.toNat = 0x205F ||
  c.toNat = 0x3000 || c.toNat = 0xFEFF

/-- The five whitespace characters the tokenizer's dispatch switch recognises
(`case " ": case "\t": case "\n": case "\r": case "\f"`). -/
def isWs5 (c : Char) : Bool :=
  c = ' ' || c = '\t' || c = '\n' || c = '\r' || c = '\x0c'

/-- JS `LineTerminator` set: the positions at which a multiline `$` anchor
matches, and the characters the regex `.` does not match. -/
def isLineTerm (c : Char) : Bool :=
  c.toNat = 10 || c.toNat = 13 || c.toNat = 0x2028 || c.toNat = 0x2029

def isDigitChar (c : Char) : Bool := '0' ≤ c && c ≤ '9'

/-- `isHex` of the source. -/
def isHex (c : Char) : Bool :=
  ('0' ≤ c && c ≤ '9') || ('a' ≤ c && c ≤ 'f') || ('A' ≤ c && c ≤ 'F')

/-- First-character class `[a-zA-Z_]` of `nameRegEx`. -/
def isNameStart (c : Char) : Bool :=
  ('a' ≤ c && c ≤ 'z') || ('A' ≤ c && c ≤ 'Z') || c = '_'

/-- Continuation class `[a-zA-Z_0-9-]` of `nameRegEx`. -/
def isNameCont (c : Char) : Bool :=
  isNameStart c || isDigitChar c || c = '-'

/-- The `[^\x00-\x7F]` class of `nameRegEx`. -/
def nonAscii (c : Char) : Bool := 0x7F < c.toNat

/-- JS `text.substring(a, b)`: clamps both arguments to the length and swaps
them if `a > b`. -/
def jsSub (s : Str) (a b : Nat) : Str :=
  (s.drop (min a b)).take (max a b - min a b)

/-- JS `text.substr(a, len)`: `len` characters starting at index `a`.
(The source calls this once, in `consumeAUnicodeRangeToken`, passing an *end
index* as `len` — the `substr`-for-`substring` slip examined in claim C8.) -/
def jsSubstr (s : Str) (a len : Nat) : Str :=
  (s.drop a).take len

/-- JS `String.prototype.trim` (strips `\s` and line terminators; all are
already contained in `isJsWs`). -/
def jsTrim (s : Str) : Str :=
  (s.dropWhile isJsWs).reverse.dropWhile isJsWs |>.reverse

/-- Numeric value of one hex digit. -/
def hexVal (c : Char) : Nat :=
  if '0' ≤ c && c ≤ '9' then c.toNat - '0'.toNat
  else if 'a' ≤ c && c ≤ 'f' then c.toNat - 'a'.toNat + 10
  else if 'A' ≤ c && c ≤ 'F' then c.toNat - 'A'.toNat + 10
  else 0

/-- JS `parseInt("0x" ++ cs, 16)`: parses the maximal leading run of hex
digits and ignores everything after it.  (The call sites always provide at
least one leading hex digit, so the `NaN` case cannot arise; values stay far
below 2^53, where JS numbers are exact.) -/
def hexLeadAux : Str → Nat → Nat
  | [], acc => acc
  | c :: r, acc => if isHex c then hexLeadAux r (acc * 16 + hexVal c) else acc

def hexLead (cs : Str) : Nat := hexLeadAux cs 0

/-- `String.fromCharCode(n)`: JS applies `ToUint16`.  Unicode surrogate code
points cannot inhabit Lean's `Char`; `Char.ofNat` maps them to `'\0'`
(a documented divergence that no examined input reaches). -/
def fromCharCode (n : Nat) : Char := Char.ofNat (n % 65536)

/-- End of the run of at most `n` hex digits starting at `p`. -/
def hexRunEnd (s : Str) : Nat → Nat → Nat
  | p, 0 => p
  | p, n+1 =>
    match s.get? p with
    | some c => if isHex c then hexRunEnd s (p+1) n else p
    | none => p

/-- End of the run of at most `n` question marks starting at `p`
(the second loop of `consumeAUnicodeRangeToken`). -/
def qRunEnd (s : Str) : Nat → Nat → Nat
  | p, 0 => p
  | p, n+1 =>
    match s.get? p with
    | some c => if c = '?' then qRunEnd s (p+1) n else p
    | none => p

/-- `Tokenizer.escape` / `stringEscapeRegex = /\\(?:([a-fA-F0-9]{1,6})\s?|(.)|(\n))/g`:
replace every escape sequence; a hex escape (tried first) eats up to six hex
digits plus one optional `\s` character and becomes `fromCharCode`; `\<any
non-line-terminator>` becomes that character; `\<LF>` becomes nothing; a
backslash followed by CR/LS/PS or at the end of the input matches nothing and
is left in place.  Fuel is structural; one unit per emitted piece suffices. -/
def escRunF : Nat → Str → Str
  | 0, r => r
  | fuel+1, cs =>
    match cs with
    | [] => []
    | c :: r =>
      if c = '\\' then
        match r with
        | [] => ['\\']
        | d :: r' =>
          if isHex d then
            let q := hexRunEnd (d :: r') 0 6
            let ds := (d :: r').take q
            let r2 := (d :: r').drop q
            let r3 := match r2 with
              | w :: r2' => if isJsWs w then r2' else r2
              | [] => r2
            fromCharCode (hexLead ds) :: escRunF fuel r3
          else if d = '\n' then escRunF fuel r'
          else if isLineTerm d then '\\' :: escRunF fuel r
          else d :: escRunF fuel r'
      else c :: escRunF fuel r

/-- `Tokenizer.escape` (the `indexOf("\\") === -1` fast path returns the
input unchanged, which coincides with running the replacement). -/
def escape (s : Str) : Str := escRunF (s.length + 1) s

/-- `text.indexOf("\n", i)`; `-1` when absent. -/
def idxNLAux : Nat → Str → Nat → Int
  | 0, _, _ => -1
  | fuel+1, s, i =>
    match s.get? i with
    | none => -1
    | some c => if c = '\n' then (i : Int) else idxNLAux fuel s (i+1)

def indexOfNL (s : Str) (i : Nat) : Int := idxNLAux (s.length + 1) s i

/-- End of the maximal run of `\s` characters starting at `i`
(`whitespaceRegEx.lastIndex` after a match at `i`). -/
def wsEndF : Nat → Str → Nat → Nat
  | 0, _, i => i
  | fuel+1, s, i =>
    match s.get? i with
    | some c => if isJsWs c then wsEndF fuel s (i+1) else i
    | none => i

def wsEnd (s : Str) (i : Nat) : Nat := wsEndF (s.length + 1 - i) s i

/-- `commentRegEx = /(\/\*(?:[^\*]|\*[^\/])*\*\/)/y` at `i`, scanning from
`p` (already past the `/*`).  Backtracking never rescues a failed parse (every
retreat boundary carries a non-`*/` position), so the deterministic scan is
exact: a lone `*` before the end fails, and `*` followed by a non-`/`
character is consumed in a pair — hence e.g. `/*a**/` does NOT match. -/
def cmtF : Nat → Str → Nat → Option Nat
  | 0, _, _ => none
  | fuel+1, s, p =>
    match s.get? p with
    | none => none
    | some c =>
      if c = '*' then
        match s.get? (p+1) with
        | some d => if d = '/' then some (p+2) else cmtF fuel s (p+2)
        | none => none
      else cmtF fuel s (p+1)

/-- Successful comment match starting at `i`: requires `/*` and returns the
index just past the closing `*/`. -/
def matchComment (s : Str) (i : Nat) : Option Nat :=
  if s.get? i = some '/' ∧ s.get? (i+1) = some '*' then cmtF (s.length + 1) s (i+2)
  else none

end CssJs

namespace CssJs

/-- Resolution of a failed content parse: retreat to the most recent
fallback boundary (where `$` matches) if one exists, else the whole sticky
match fails. -/
def fbFail : Option Nat → Option (Nat × Bool)
  | some b => some (b, false)
  | none => none

/-- One content step of `singleQuoteStringRegEx` / `doubleQuoteStringRegEx`
(`/q((?:[^\n\r\f\\q]|\\(?:\$|\n|[0-9a-fA-F]{1,6}\s?|q))*)(?:q|$)/gym` with
`q` the quote).  `strLoopF s q fuel p fb` scans from boundary `p` with `fb`
the most recent backtracking boundary (a position where the multiline `$`
anchor matches, created when a hex escape's greedy `\s?` swallowed a line
terminator).  Returns `some (b, closed)`: the match's content ends at `b`,
and `closed` records whether the closing quote was consumed (`lastIndex` is
`b+1`) or the match ended at a `$` anchor (`lastIndex` is `b`).  Returns
`none` when the whole (sticky) regex fails: an out-of-grammar escape, a
backslash at the end of input, or a form feed in the content, with no
recorded fallback boundary. -/
def strLoopF (s : Str) (q : Char) : Nat → Nat → Option Nat → Option (Nat × Bool)
  | 0, _, _ => none
  | fuel+1, p, fb =>
    match s.get? p with
    | none => some (p, false)
    | some c =>
      if c = q then some (p, true)
      else if c = '\n' ∨ c = '\r' then some (p, false)
      else if c = '\x0c' then fbFail fb
      else if c = '\\' then
        match s.get? (p+1) with
        | none => fbFail fb
        | some d =>
          if isHex d then
            let q1 := hexRunEnd s (p+1) 6
            match s.get? q1 with
            | some w =>
              if isJsWs w then
                strLoopF s q fuel (q1+1) (if isLineTerm w then some q1 else fb)
              else strLoopF s q fuel q1 fb
            | none => strLoopF s q fuel q1 fb
          else if d = '$' ∨ d = '\n' ∨ d = q then strLoopF s q fuel (p+2) fb
          else fbFail fb
      else strLoopF s q fuel (p+1) fb

/-- `Percentage`/`Dimension` discrimination happens in the numeric consumer;
the string consumer reports its raw match.  `strMatch s i` is the sticky
string-regex match at `i` (the quote); `some (b, li)` gives the content span
`[i+1, b)` and `lastIndex = li`. -/
def strMatch (s : Str) (i : Nat) : Option (Nat × Nat) :=
  match s.get? i with
  | some c =>
    match strLoopF s c (s.length + 2) (i+1) none with
    | some (b, closed) => some (b, if closed then b + 1 else b)
    | none => none
  | none => none

/-- End of a maximal nonempty digit run starting at `p` (caller has checked
`s.get? p` is a digit). -/
def digEndF : Nat → Str → Nat → Nat
  | 0, _, p => p
  | fuel+1, s, p =>
    match s.get? p with
    | some c => if isDigitChar c then digEndF fuel s (p+1) else p
    | none => p

def digEnd (s : Str) (p : Nat) : Nat := digEndF (s.length + 1 - p) s p

/-- `numberRegEx = /[\+\-]?(?:\d+\.\d+|\d+|\.\d+)(?:[eE][\+\-]?\d+)?/gym` at
`i`; returns the match's end.  The alternatives are tried in order and the
optional exponent is dropped if its `\d+` fails, which is exactly what the
backtracking engine does. -/
def matchNumber (s : Str) (i : Nat) : Option Nat :=
  let p := if s.get? i = some '+' ∨ s.get? i = some '-' then i + 1 else i
  let core : Option Nat :=
    match s.get? p with
    | some c =>
      if isDigitChar c then
        let q := digEnd s p
        match s.get? q, s.get? (q+1) with
        | some '.', some d => if isDigitChar d then some (digEnd s (q+1)) else some q
        | _, _ => some q
      else if c = '.' then
        match s.get? (p+1) with
        | some d => if isDigitChar d then some (digEnd s (p+1)) else none
        | none => none
      else none
    | none => none
  match core with
  | none => none
  | some r =>
    match s.get? r with
    | some e =>
      if e = 'e' ∨ e = 'E' then
        let t := if s.get? (r+1) = some '+' ∨ s.get? (r+1) = some '-' then r + 2 else r + 1
        match s.get? t with
        | some d => if isDigitChar d then some (digEnd s t) else some r
        | none => some r
      else some r
    | none => some r

/-- An escape inside `nameRegEx`: `\\(?:\$|\n|[0-9a-fA-F]{1,6}\s?)`, with `p`
at the backslash.  Returns the index after the escape, `none` if the escape
alternation fails there. -/
def nameEscEnd (s : Str) (p : Nat) : Option Nat :=
  match s.get? (p+1) with
  | none => none
  | some d =>
    if isHex d then
      let q := hexRunEnd s (p+1) 6
      match s.get? q with
      | some w => if isJsWs w then some (q+1) else some q
      | none => some q
    else if d = '$' ∨ d = '\n' then some (p+2)
    else none

/-- The continuation part of `nameRegEx`:
`(?:(?:[a-zA-Z_0-9\-]|[^\x00-\x7F])*|\\(?:\$|\n|[0-9a-fA-F]{1,6}\s?))*`,
equivalent to a greedy `(namechar|escape)*` (the empty iteration of the inner
star terminates the outer star in JS). -/
def nameRestF : Nat → Str → Nat → Nat
  | 0, _, p => p
  | fuel+1, s, p =>
    match s.get? p with
    | none => p
    | some c =>
      if isNameCont c || nonAscii c then nameRestF fuel s (p+1)
      else if c = '\\' then
        match nameEscEnd s p with
        | some e => nameRestF fuel s e
        | none => p
      else p

/-- `nameRegEx` at `i`: optional `-`, a first character
(`[a-zA-Z_]`, non-ASCII, or escape), then the continuation.  Returns the raw
matched text (`result[0]`) and the end index.  Nothing follows the trailing
star, so greedy scanning is exact. -/
def matchName (s : Str) (i : Nat) : Option (Str × Nat) :=
  let o := if s.get? i = some '-' then i + 1 else i
  let first : Option Nat :=
    match s.get? o with
    | none => none
    | some c =>
      if isNameStart c || nonAscii c then some (o+1)
      else if c = '\\' then nameEscEnd s o
      else none
  match first with
  | none => none
  | some f => let e := nameRestF (s.length + 1) s f; some (jsSub s i e, e)

end CssJs

namespace CssJs

/-- `"(" | "{" | "["`, the `associatedToken` type of a `SimpleBlock`. -/
inductive Assoc where
  | paren | brack | brace
  deriving DecidableEq, Repr

def openChar : Assoc → Char
  | .paren => '(' | .brack => '[' | .brace => '{'

/-- `endianTokenMap`. -/
def closeChar : Assoc → Char
  | .paren => ')' | .brack => ']' | .brace => '}'

/-- `InputToken`: the simple tokens are JS strings (`"("`, `" "`, `"^="`,
`"<!--"`, …) and the object tokens are tagged records carrying their
`source` substring.  (The `Comment` interface of the source is never
constructed at run time — the tokenizer filters comments — so it has no
constructor here.) -/
inductive Tok where
  | str (cs : Str)
  | string (source text : Str)
  | delim (source : Str)
  | num (source : Str)
  | percentage (source : Str)
  | dimension (source : Str)
  | ident (source name : Str)
  | url (source url : Str)
  | functionToken (source name : Str)
  | simpleBlock (associatedToken : Assoc) (values : List Tok)
  | atKeyword (source name : Str)
  | hash (source name : Str)
  | functionObject (name : Str) (components : List Tok)
  | unicodeRange (source : Str) (startCp endCp : Nat)
  deriving Repr

/-- JS `inputToken === "<literal>"`: a strict-equality test of a token
against a string literal (object tokens never compare equal to strings). -/
def isStrTok (t : Tok) (cs : Str) : Bool :=
  match t with
  | .str cs' => cs' = cs
  | _ => false

mutual
/-- `toString(token)` of the source. -/
def toStr : Tok → Str
  | .str cs => cs
  | .functionObject name comps => name ++ '(' :: toStrL comps ++ [')']
  | .simpleBlock a vs => openChar a :: toStrL vs ++ [closeChar a]
  | .string src _ => src
  | .delim src => src
  | .num src => src
  | .percentage src => src
  | .dimension src => src
  | .ident src _ => src
  | .url src _ => src
  | .functionToken src _ => src
  | .atKeyword src _ => src
  | .hash src _ => src
  | .unicodeRange src _ _ => src

/-- `tokens.map(toString).join("")`. -/
def toStrL : List Tok → Str
  | [] => []
  | t :: ts => toStr t ++ toStrL ts
end

/-- `arrayToString`: stringify and trim. -/
def arrayToString (tokens : List Tok) : Str := jsTrim (toStrL tokens)

/-- `split(arr, sep)` of the source, with its exact index bookkeeping: a
group is pushed at a separator (or at the end) only when nonempty, and —
faithfully to the source — `start` is *not* advanced past a separator that
closes an empty group, so that separator leaks into the next group. -/
def splitAux (arr : List Tok) (sep : Str) : Nat → Nat → Nat → List (List Tok)
  | 0, _, _ => []
  | fuel+1, start, en =>
    if en ≤ arr.length then
      if ((arr.get? en).elim false (fun t => isStrTok t sep)) || (en == arr.length) then
        if start ≠ en then
          ((arr.drop start).take (en - start)) :: splitAux arr sep fuel (en + 1) (en + 1)
        else splitAux arr sep fuel start (en + 1)
      else splitAux arr sep fuel start (en + 1)
    else []

def split (arr : List Tok) (sep : Str) : List (List Tok) :=
  splitAux arr sep (arr.length + 2) 0 0

end CssJs

namespace CssJs

/-- ASCII `toLowerCase` (the only `toLowerCase` use compares against
`"url"`, ASCII). -/
def asciiLower (c : Char) : Char :=
  if 'A' ≤ c && c ≤ 'Z' then Char.ofNat (c.toNat + 32) else c

def listLower (cs : Str) : Str := cs.map asciiLower

/-- Result of `consumeAnIdentLikeToken` / `consumeAURLToken`: a token, a JS
`null` (with the tokenizer's cursor wherever the attempt left it), or the
`"Escaping not yet supported!"` throw. -/
inductive ILRes where
  | tk (t : Tok) (next : Nat)
  | nul (next : Nat)
  | threw (next : Nat)

/-- `consumeAStringToken` (§4.3.4): run the quote's sticky regex at `i`;
build a `String` token from the capture, or return `null` when the regex
fails. -/
def consumeAStringToken (s : Str) (i : Nat) : Option (Tok × Nat) :=
  match strMatch s i with
  | some (b, li) => some (.string (jsSub s i li) (escape (jsSub s (i+1) b)), li)
  | none => none

/-- The unquoted-URL character loop of `consumeAURLToken`: each character is
consumed before it is examined (`this.text[this.nextInputCodePointIndex++]`).
`start` is the reported source start (`next - 4` at entry). -/
def urlLoopF : Nat → Str → Nat → Str → Nat → ILRes
  | 0, _, _, _, p => .nul p
  | fuel+1, s, start, acc, p =>
    match s.get? p with
    | none => .tk (.url (jsSub s start p) acc) p
    | some c =>
      if c = ')' then .tk (.url (jsSub s start (p+1)) acc) (p+1)
      else if isWs5 c then
        let q := wsEnd s (p+1)
        if s.get? q = some ')' then .tk (.url (jsSub s start (q+1)) acc) (q+1)
        else .nul q
      else if c = '"' ∨ c = '\'' then .nul (p+1)
      else if c = '\\' then .threw (p+1)
      else urlLoopF fuel s start (acc ++ [c]) (p+1)

/-- `consumeAURLToken` (§4.3.5), entered with `k` just past the consumed
`url(`; the reported source starts at `k - 4` (which is the token's true
start only when the `url` keyword was spelled with three literal
characters). -/
def consumeAURLToken (s : Str) (k : Nat) : ILRes :=
  let start := k - 4
  let p := wsEnd s k
  if p ≥ s.length then .tk (.url (jsSub s start p) []) p
  else
    match s.get? p with
    | none => .tk (.url (jsSub s start p) []) p
    | some c =>
      if c = '"' ∨ c = '\'' then
        match consumeAStringToken s p with
        | some (.string _ txt, li) =>
          let q := wsEnd s li
          if s.get? q = some ')' ∨ q ≥ s.length then .tk (.url (jsSub s start (q+1)) txt) (q+1)
          else .nul q
        | _ => .nul p
      else urlLoopF (s.length + 2) s start [] p

/-- `consumeAnIdentLikeToken` (§4.3.3). -/
def consumeAnIdentLikeToken (s : Str) (i : Nat) : ILRes :=
  match matchName s i with
  | none => .nul i
  | some (raw, e) =>
    if s.get? e = some '(' then
      if listLower (escape raw) = "url".toList then consumeAURLToken s (e+1)
      else .tk (.functionToken (jsSub s i (e+1)) (escape raw)) (e+1)
    else .tk (.ident (jsSub s i e) (escape raw)) e

/-- `consumeANumericToken` (§4.3.2). -/
def consumeANumericToken (s : Str) (i : Nat) : Option (Tok × Nat) :=
  match matchNumber s i with
  | none => none
  | some r =>
    if s.get? r = some '%' then some (.percentage (jsSub s i (r+1)), r+1)
    else
      match matchName s r with
      | some (_, e) => some (.dimension (jsSub s i e), e)
      | none => some (.num (jsSub s i r), r)

/-- `consumeAUnicodeRangeToken` (§4.3.6), entered with `h` just past the
consumed `U+`.  The second-range branch reproduces the source's
`this.text.substr(hexStart, hexEnd)` — `substr` takes a *length*, so the end
index `hexEnd` grabs extra characters, which `parseInt` then consumes as far
as they remain hex digits (claim C8). -/
def consumeAUnicodeRangeToken (s : Str) (h : Nat) : Tok × Nat :=
  let he := hexRunEnd s h 6
  let we := qRunEnd s he (6 - (he - h))
  if we ≠ he then
    let str := jsSub s h we
    let lo := hexLead (str.map (fun c => if c = '?' then '0' else c))
    let hi := hexLead (str.map (fun c => if c = '?' then 'F' else c))
    (.unicodeRange (jsSub s (h-2) we) lo hi, we)
  else
    let lo := hexLead (jsSub s h we)
    if s.get? we = some '-' ∧ (s.get? (we+1)).elim false isHex then
      let h2 := we + 1
      let e2 := hexRunEnd s h2 6
      let endStr := jsSubstr s h2 e2
      (.unicodeRange (jsSub s (h-2) e2) lo (hexLead endStr), e2)
    else (.unicodeRange (jsSub s (h-2) we) lo lo, we)

/-- One step of `consumeAToken`'s dispatch switch at position `i`, with a
`comment` outcome for the recursive tail-call after a comment match. -/
inductive DStep where
  | tok (t : Tok) (next : Nat)
  | halt (next : Nat)
  | threw (next : Nat)
  | comment (next : Nat)

/-- Map an ident-like result to a dispatch outcome when the switch arm has
no `|| consumeADelimToken()` fallback (the `"\\"` and `"u"/"U"` arms). -/
def ilPlain : ILRes → DStep
  | .tk t n => .tok t n
  | .nul n => .halt n
  | .threw n => .threw n

/-- Map an ident-like result to a dispatch outcome for the default arm,
whose fallback `consumeADelimToken()` reads the character at the (possibly
advanced) cursor. -/
def ilOrDelim (s : Str) : ILRes → DStep
  | .tk t n => .tok t n
  | .threw n => .threw n
  | .nul n =>
    match s.get? n with
    | some d => .tok (.delim [d]) (n+1)
    | none => .halt n

/-- `consumeAToken` (§4.3.1): the dispatch on the first code point.  A
successful comment match is reported as `.comment` (the source tail-calls
`consumeAToken`; `tokStepF` below performs that recursion). -/
def dispatch1 (s : Str) (i : Nat) : DStep :=
  match s.get? i with
  | none => .halt i
  | some c =>
    if c = '"' ∨ c = '\'' then
      match consumeAStringToken s i with
      | some (t, n) => .tok t n
      | none => .halt i
    else if c = '(' ∨ c = ')' ∨ c = ',' ∨ c = ':' ∨ c = ';' ∨ c = '[' ∨ c = ']' ∨
            c = '{' ∨ c = '}' then .tok (.str [c]) (i+1)
    else if c = '#' then
      match matchName s (i+1) with
      | some (raw, e) => .tok (.hash (jsSub s i e) (escape raw)) e
      | none => .tok (.delim [c]) (i+1)
    else if isWs5 c then .tok (.str [' ']) (wsEnd s i)
    else if c = '@' then
      match matchName s (i+1) with
      | some (raw, e) => .tok (.atKeyword (jsSub s i e) (escape raw)) e
      | none => .tok (.delim [c]) (i+1)
    else if c = '\\' then
      if s.get? (i+1) = some '\n' then .tok (.delim ['\\']) (i+1)
      else ilPlain (consumeAnIdentLikeToken s i)
    else if isDigitChar c then
      match consumeANumericToken s i with
      | some (t, n) => .tok t n
      | none => .halt i
    else if c = 'u' ∨ c = 'U' then
      if s.get? (i+1) = some '+' ∧ (s.get? (i+2)).elim false (fun d => isHex d || d = '?') then
        let (t, n) := consumeAUnicodeRangeToken s (i+2)
        .tok t n
      else ilPlain (consumeAnIdentLikeToken s i)
    else if c = '$' ∨ c = '*' ∨ c = '^' ∨ c = '|' ∨ c = '~' then
      if s.get? (i+1) = some '=' then .tok (.str [c, '=']) (i+2)
      else .tok (.delim [c]) (i+1)
    else if c = '-' then
      match consumeANumericToken s i with
      | some (t, n) => .tok t n
      | none =>
        match consumeAnIdentLikeToken s i with
        | .tk t n => .tok t n
        | .threw n => .threw n
        | .nul n =>
          if jsSubstr s n 3 = "-->".toList then .tok (.str ("-->".toList)) (n+3)
          else
            match s.get? n with
            | some d => .tok (.delim [d]) (n+1)
            | none => .halt n
    else if c = '+' ∨ c = '.' then
      match consumeANumericToken s i with
      | some (t, n) => .tok t n
      | none => .tok (.delim [c]) (i+1)
    else if c = '/' then
      match matchComment s i with
      | some e => .comment e
      | none => .tok (.delim [c]) (i+1)
    else if c = '<' then
      if jsSubstr s i 4 = "<!--".toList then .tok (.str ("<!--".toList)) (i+4)
      else .tok (.delim [c]) (i+1)
    else ilOrDelim s (consumeAnIdentLikeToken s i)

/-- Result of one full `consumeAToken` call: the token with its dispatch
start `j` (the value of `prevInputCodePointIndex`, reset past any skipped
comments) and the cursor `next` afterwards; or a falsy result (`undefined`
at end of input / `null` for a bad string or bad url); or a throw. -/
inductive TStep where
  | tok (t : Tok) (j next : Nat)
  | halt (j next : Nat)
  | threw (j next : Nat)

/-- `consumeAToken` with the comment tail-recursion unrolled on fuel (each
comment consumes at least four characters, so `s.length + 1` units
suffice). -/
def tokStepF : Nat → Str → Nat → TStep
  | 0, _, i => .halt i i
  | fuel+1, s, i =>
    match dispatch1 s i with
    | .comment e => tokStepF fuel s e
    | .tok t n => .tok t i n
    | .halt n => .halt i n
    | .threw n => .threw i n

def tokStep (s : Str) (i : Nat) : TStep := tokStepF (s.length + 1) s i

/-- `tokenize`: collect tokens until `consumeAToken` returns a falsy value
(or throws — the materializing loop then aborts as well). -/
def tokenizeF : Nat → Str → Nat → List Tok
  | 0, _, _ => []
  | fuel+1, s, i =>
    match tokStep s i with
    | .tok t _ n => t :: tokenizeF fuel s n
    | _ => []

def tokenizeToks (s : Str) : List Tok := tokenizeF (s.length + 2) s 0

end CssJs

namespace CssJs

/-- Line/column position (`Position` of the source).  The column can go
negative in JS when the line cache has advanced past the queried index, so it
is an `Int`. -/
structure Posn where
  line : Nat
  column : Int
  deriving DecidableEq, Repr

/-- `Source` of the source (a span). -/
structure Span where
  startP : Posn
  endP : Posn
  deriving DecidableEq, Repr

/-- The parser's token source: the base tokenizer over the text, or — while
a `with` sub-stream is active — an array with a cursor (the closure
`() => inputTokens[i++]`). -/
inductive TokSource where
  | base
  | arr (toks : List Tok) (i : Nat)

/-- Mutable state of a `CSSParser` object: the tokenizer fields (`text`,
`nextInputCodePointIndex`, `prevInputCodePointIndex`, the line cache), the
`topLevelFlag`, the current token source, and whether `start`/`end` are
currently replaced by the throwing closures of `with`. -/
structure PState where
  text : Str
  textIdx : Nat
  prevIdx : Nat
  line : Nat
  lineStart : Nat
  lineEnd : Int
  source : TokSource
  posDisabled : Bool
  topLevel : Bool

/-- `reset(text)` plus `topLevelFlag = true` as performed by
`parseAStylesheet` (a fresh parser has the prototype `start`/`end` and the
base token source). -/
def resetSt (text : Str) : PState :=
  { text := text, textIdx := 0, prevIdx := 0, line := 1, lineStart := 0,
    lineEnd := -1, source := .base, posDisabled := false, topLevel := true }

abbrev Res (α : Type) := Except String α

def urlEscapeMsg : String := "Escaping not yet supported!"
def subStreamMsg : String :=
  "Source location when working 'with' sub input streams is not supported."
def fuelMsg : String := "out of fuel"
def typeErrMsg : String := "TypeError"

/-- `this.consumeAToken()`: read from the active source.  An array source
returns `undefined` past its end but still advances `i`; the base source
advances the tokenizer and records `prevInputCodePointIndex`. -/
def consumeATokenP (st : PState) : Res (Option Tok) × PState :=
  match st.source with
  | .arr toks i => (Except.ok (toks.get? i), { st with source := .arr toks (i+1) })
  | .base =>
    match tokStep st.text st.textIdx with
    | .tok t j n => (Except.ok (some t), { st with textIdx := n, prevIdx := j })
    | .halt j n => (Except.ok none, { st with textIdx := n, prevIdx := j })
    | .threw j n => (Except.error urlEscapeMsg, { st with textIdx := n, prevIdx := j })

/-- The `while (index > this.lineEndIndex)` loop of `readNextLine`. -/
def rnlLoop : Nat → PState → Nat → PState
  | 0, st, _ => st
  | fuel+1, st, index =>
    if (index : Int) > st.lineEnd then
      let ls : Nat := (st.lineEnd + 1).toNat
      let le := indexOfNL st.text ls
      rnlLoop fuel
        { st with lineStart := ls,
                  lineEnd := if le = -1 then (st.text.length : Int) else le,
                  line := st.line + 1 } index
    else st

/-- `readNextLine(index)`. -/
def readNextLine (st : PState) (index : Nat) : Posn × PState :=
  let st1 :=
    if st.lineEnd = -1 then
      let le := indexOfNL st.text 0
      { st with lineEnd := if le = -1 then (st.text.length : Int) else le }
    else st
  let st2 := rnlLoop (st1.text.length + 2) st1 index
  ({ line := st2.line, column := (index : Int) - (st2.lineStart : Int) + 1 }, st2)

/-- `start()`: throws while a sub-stream's override is installed. -/
def startP (st : PState) : Res Posn × PState :=
  if st.posDisabled then (Except.error subStreamMsg, st)
  else
    let (p, st') := readNextLine st st.prevIdx
    (Except.ok p, st')

/-- `end()`: throws while a sub-stream's override is installed. -/
def endP (st : PState) : Res Posn × PState :=
  if st.posDisabled then (Except.error subStreamMsg, st)
  else
    let (p, st') := readNextLine st st.textIdx
    (Except.ok p, st')

/-- `with(inputTokens, action)`: save `consumeAToken`, install the array
reader and the throwing `start`/`end`, run the action, and in the `finally`
restore the saved reader — but reinstate `super.start`/`super.end`
unconditionally (`this.start = super.start`), whether or not an outer
sub-stream is still active.  The error path flows through the same
restoration. -/
def withTokens {α : Type} (toks : List Tok) (action : PState → Res α × PState)
    (st : PState) : Res α × PState :=
  let saved := st.source
  let (r, st2) := action { st with source := .arr toks 0, posDisabled := true }
  (r, { st2 with source := saved, posDisabled := false })

/-- `AtRule` of the source (`position?` exists on the interface but is never
assigned by this draft). -/
structure AtRuleR where
  name : Str
  prelude : List Tok
  block : Option Tok
  position : Option Span
  deriving Repr

/-- `Rule = QualifiedRule | AtRule`. -/
inductive RuleR where
  | qualified (prelude : List Tok) (block : Tok) (position : Option Span)
  | at (r : AtRuleR)
  deriving Repr

/-- `Stylesheet` of the source (the inner `stylesheet` record). -/
structure StylesheetR where
  rules : List RuleR
  parsingErrors : List String
  deriving Repr

end CssJs

namespace CssJs

mutual

/-- `consumeAComponentValue(reconsumedInputToken)` (§5.4.6). -/
def consumeAComponentValue (fuel : Nat) (tok : Tok) (st : PState) : Res Tok × PState :=
  match fuel with
  | 0 => (Except.error fuelMsg, st)
  | fuel+1 =>
    match tok with
    | .str cs =>
      if cs = ['{'] then consumeASimpleBlock fuel .brace st
      else if cs = ['['] then consumeASimpleBlock fuel .brack st
      else if cs = ['('] then consumeASimpleBlock fuel .paren st
      else (Except.ok tok, st)
    | .functionToken _ name => consumeAFunction fuel name st
    | _ => (Except.ok tok, st)

/-- `consumeASimpleBlock(associatedToken)` (§5.4.7). -/
def consumeASimpleBlock (fuel : Nat) (a : Assoc) (st : PState) : Res Tok × PState :=
  match fuel with
  | 0 => (Except.error fuelMsg, st)
  | fuel+1 => sbLoop fuel a [] st

/-- The token loop of `consumeASimpleBlock`: stop at the matching endian
token or end of stream; everything else goes through
`consumeAComponentValue` and is appended (the pushed value is always
truthy). -/
def sbLoop (fuel : Nat) (a : Assoc) (acc : List Tok) (st : PState) : Res Tok × PState :=
  match fuel with
  | 0 => (Except.error fuelMsg, st)
  | fuel+1 =>
    match consumeATokenP st with
    | (Except.error e, st') => (Except.error e, st')
    | (Except.ok none, st') => (Except.ok (.simpleBlock a acc), st')
    | (Except.ok (some t), st') =>
      if isStrTok t [closeChar a] then (Except.ok (.simpleBlock a acc), st')
      else
        match consumeAComponentValue fuel t st' with
        | (Except.error e, st2) => (Except.error e, st2)
        | (Except.ok v, st2) => sbLoop fuel a (acc ++ [v]) st2

/-- `consumeAFunction(name)` (§5.4.8). -/
def consumeAFunction (fuel : Nat) (name : Str) (st : PState) : Res Tok × PState :=
  match fuel with
  | 0 => (Except.error fuelMsg, st)
  | fuel+1 => fnLoop fuel name [] st

/-- The token loop of `consumeAFunction`: stop at `")"` or end of stream. -/
def fnLoop (fuel : Nat) (name : Str) (acc : List Tok) (st : PState) : Res Tok × PState :=
  match fuel with
  | 0 => (Except.error fuelMsg, st)
  | fuel+1 =>
    match consumeATokenP st with
    | (Except.error e, st') => (Except.error e, st')
    | (Except.ok none, st') => (Except.ok (.functionObject name acc), st')
    | (Except.ok (some t), st') =>
      if isStrTok t [')'] then (Except.ok (.functionObject name acc), st')
      else
        match consumeAComponentValue fuel t st' with
        | (Except.error e, st2) => (Except.error e, st2)
        | (Except.ok v, st2) => fnLoop fuel name (acc ++ [v]) st2

/-- `consumeAListOfRules()` (§5.4.1). -/
def consumeAListOfRules (fuel : Nat) (st : PState) : Res (List RuleR) × PState :=
  match fuel with
  | 0 => (Except.error fuelMsg, st)
  | fuel+1 => lorLoop fuel [] st

/-- The token loop of `consumeAListOfRules`: whitespace is discarded;
CDO/CDC are discarded at the top level and otherwise *seed a qualified rule*
(the source's quirk); at-keywords start an at-rule; anything else seeds a
qualified rule.  A `null` rule is dropped. -/
def lorLoop (fuel : Nat) (acc : List RuleR) (st : PState) : Res (List RuleR) × PState :=
  match fuel with
  | 0 => (Except.error fuelMsg, st)
  | fuel+1 =>
    match consumeATokenP st with
    | (Except.error e, st') => (Except.error e, st')
    | (Except.ok none, st') => (Except.ok acc, st')
    | (Except.ok (some t), st') =>
      if isStrTok t [' '] then lorLoop fuel acc st'
      else if isStrTok t ("<!--".toList) ∨ isStrTok t ("-->".toList) then
        if st'.topLevel then lorLoop fuel acc st'
        else
          match consumeAQualifiedRule fuel t st' with
          | (Except.error e, st2) => (Except.error e, st2)
          | (Except.ok (some r), st2) => lorLoop fuel (acc ++ [r]) st2
          | (Except.ok none, st2) => lorLoop fuel acc st2
      else
        match t with
        | .atKeyword _ nm =>
          match consumeAnAtRule fuel nm st' with
          | (Except.error e, st2) => (Except.error e, st2)
          | (Except.ok r, st2) => lorLoop fuel (acc ++ [RuleR.at r]) st2
        | _ =>
          match consumeAQualifiedRule fuel t st' with
          | (Except.error e, st2) => (Except.error e, st2)
          | (Except.ok (some r), st2) => lorLoop fuel (acc ++ [r]) st2
          | (Except.ok none, st2) => lorLoop fuel acc st2

/-- `consumeAnAtRule(reconsumedInputToken)` (§5.4.2), given the at-keyword's
name. -/
def consumeAnAtRule (fuel : Nat) (nm : Str) (st : PState) : Res AtRuleR × PState :=
  match fuel with
  | 0 => (Except.error fuelMsg, st)
  | fuel+1 => atLoop fuel nm [] st

/-- The token loop of `consumeAnAtRule`: `";"` or end of stream terminate
without a block; `"{"` consumes a simple block; a pre-formed `{`-block is
adopted; everything else is a component value appended to the prelude.
`position` is never assigned. -/
def atLoop (fuel : Nat) (nm : Str) (prelude : List Tok) (st : PState) : Res AtRuleR × PState :=
  match fuel with
  | 0 => (Except.error fuelMsg, st)
  | fuel+1 =>
    match consumeATokenP st with
    | (Except.error e, st') => (Except.error e, st')
    | (Except.ok none, st') =>
      (Except.ok { name := nm, prelude := prelude, block := none, position := none }, st')
    | (Except.ok (some t), st') =>
      if isStrTok t [';'] then
        (Except.ok { name := nm, prelude := prelude, block := none, position := none }, st')
      else if isStrTok t ['{'] then
        match consumeASimpleBlock fuel .brace st' with
        | (Except.error e, st2) => (Except.error e, st2)
        | (Except.ok blk, st2) =>
          (Except.ok { name := nm, prelude := prelude, block := some blk, position := none }, st2)
      else
        match t with
        | .simpleBlock .brace _ =>
          (Except.ok { name := nm, prelude := prelude, block := some t, position := none }, st')
        | _ =>
          match consumeAComponentValue fuel t st' with
          | (Except.error e, st2) => (Except.error e, st2)
          | (Except.ok v, st2) => atLoop fuel nm (prelude ++ [v]) st2

/-- `consumeAQualifiedRule(reconsumedInputToken)` (§5.4.3). -/
def consumeAQualifiedRule (fuel : Nat) (seed : Tok) (st : PState) : Res (Option RuleR) × PState :=
  match fuel with
  | 0 => (Except.error fuelMsg, st)
  | fuel+1 => qrLoop fuel [] seed st

/-- The do-while body of `consumeAQualifiedRule` for the current token:
`"{"` consumes the block and returns; a pre-formed `{`-block is adopted (a
pre-formed `(`/`[` block falls through to the prelude); otherwise the
component value is appended and the next token read — end of stream yields
`null` (rule dropped). -/
def qrLoop (fuel : Nat) (prelude : List Tok) (cur : Tok) (st : PState) :
    Res (Option RuleR) × PState :=
  match fuel with
  | 0 => (Except.error fuelMsg, st)
  | fuel+1 =>
    if isStrTok cur ['{'] then
      match consumeASimpleBlock fuel .brace st with
      | (Except.error e, st2) => (Except.error e, st2)
      | (Except.ok blk, st2) => (Except.ok (some (.qualified prelude blk none)), st2)
    else
      match cur with
      | .simpleBlock .brace _ => (Except.ok (some (.qualified prelude cur none)), st)
      | _ =>
        match consumeAComponentValue fuel cur st with
        | (Except.error e, st2) => (Except.error e, st2)
        | (Except.ok v, st2) =>
          match consumeATokenP st2 with
          | (Except.error e, st3) => (Except.error e, st3)
          | (Except.ok none, st3) => (Except.ok none, st3)
          | (Except.ok (some t), st3) => qrLoop fuel (prelude ++ [v]) t st3

end

/-- Fuel budget for a parse of `text`: every loop iteration consumes at
least one token and every token consumes at least one character, with a
bounded number of nested calls per token. -/
def pFuel (text : Str) : Nat := text.length * 8 + 64

/-- `parseAStylesheet(text)` (§5.3.1): reset, set the top-level flag, consume
a list of rules, and return them with an empty `parsingErrors` list (nothing
in this draft ever appends to it). -/
def parseAStylesheet (text : Str) : Res StylesheetR × PState :=
  match consumeAListOfRules (pFuel text) (resetSt text) with
  | (Except.error e, st') => (Except.error e, st')
  | (Except.ok rules, st') => (Except.ok { rules := rules, parsingErrors := [] }, st')

end CssJs

namespace CssJs

/-- `Decl` of the source: `type`, `property`, `value` and an (optional,
never-assigned) `position`.  The interface carries no `important` field. -/
structure DeclR where
  property : Str
  value : Str
  position : Option Span
  deriving Repr

/-- Element type of `consumeAListOfDeclarations`'s result:
`Array<Decl | AtRule>`. -/
inductive DeclOrAt where
  | decl (d : DeclR)
  | at (a : AtRuleR)
  deriving Repr

/-- `isDeclaration`. -/
def isDeclaration : DeclOrAt → Bool
  | .decl _ => true
  | .at _ => false

/-- `StyleRule` of the source. -/
structure StyleRuleR where
  selectors : List Str
  declarations : List DeclOrAt
  position : Option Span
  deriving Repr

/-- `Keyframe` of the source. -/
structure KeyframeR where
  values : List Str
  declarations : List DeclR
  deriving Repr

/-- `CSSRules = StyleRule | ImportAtRule | KeyframesAtRule`. -/
inductive CSSRule where
  | style (r : StyleRuleR)
  | importRule (imp : Str) (position : Option Span)
  | keyframes (name : Str) (frames : List KeyframeR)
  deriving Repr

/-- `CSSStylesheet` of the source (the inner record). -/
structure CSSStylesheetR where
  rules : List CSSRule
  parsingErrors : List String
  deriving Repr

/-- The index `l` left by `while (l >= 0 && valueInputTokens[l] === " ") --l`
when started at index `l`; `none` models `l = -1`. -/
def lastNonWs (v : List Tok) : Nat → Option Nat
  | 0 => if (v.get? 0).elim false (fun t => isStrTok t [' ']) then none else some 0
  | l+1 =>
    if (v.get? (l+1)).elim false (fun t => isStrTok t [' ']) then lastNonWs v l
    else some (l+1)

/-- The `!important` analysis of `consumeADeclaration` (lines 996–1008 of the
source): if the last non-whitespace token is an `Ident` whose (decoded) name
is exactly `"important"` and the non-whitespace token before it is a
`Delim` with source `"!"`, slice the value to just before the `"!"`.  The
internal `isImportant` flag this computes is discarded by the source — only
the sliced token list reaches the returned declaration. -/
def stripImportant (v : List Tok) : List Tok :=
  if v.isEmpty then v
  else
    match lastNonWs v (v.length - 1) with
    | none => v
    | some l1 =>
      match v.get? l1 with
      | some (.ident _ nm) =>
        if nm = "important".toList then
          match l1 with
          | 0 => v
          | l1'+1 =>
            match lastNonWs v l1' with
            | none => v
            | some l2 =>
              match v.get? l2 with
              | some (.delim d) => if d = ['!'] then v.take l2 else v
              | _ => v
        else v
      | _ => v

/-- The `while ((inputToken = this.consumeAToken()) && inputToken === " ")`
loop of `consumeADeclaration`; returns the first token that is not `" "`
(or `none` at end of stream). -/
def declSkipWs (fuel : Nat) (st : PState) : Res (Option Tok) × PState :=
  match fuel with
  | 0 => (Except.error fuelMsg, st)
  | fuel+1 =>
    match consumeATokenP st with
    | (Except.error e, st') => (Except.error e, st')
    | (Except.ok none, st') => (Except.ok none, st')
    | (Except.ok (some t), st') =>
      if isStrTok t [' '] then declSkipWs fuel st' else (Except.ok (some t), st')

/-- The value-collection loop of `consumeADeclaration`
(`while (inputToken = this.consumeAToken()) valueInputTokens.push(...)`). -/
def declCollect (fuel : Nat) (acc : List Tok) (st : PState) : Res (List Tok) × PState :=
  match fuel with
  | 0 => (Except.error fuelMsg, st)
  | fuel+1 =>
    match consumeATokenP st with
    | (Except.error e, st') => (Except.error e, st')
    | (Except.ok none, st') => (Except.ok acc, st')
    | (Except.ok (some t), st') => declCollect fuel (acc ++ [t]) st'

/-- `consumeADeclaration()` (§5.4.5), reading from the current (sub-stream)
token source.  The first token is cast to an `IdentToken` by the source; the
callers only ever supply lists beginning with an `Ident` (for an absent first
token JS would throw reading `.name` of `undefined`, and for a non-object
token it would produce an `undefined` property — both modelled as failures,
and both unreachable from the call sites). -/
def consumeADeclaration (fuel : Nat) (st : PState) : Res (Option DeclR) × PState :=
  match consumeATokenP st with
  | (Except.error e, st1) => (Except.error e, st1)
  | (Except.ok none, st1) => (Except.error typeErrMsg, st1)
  | (Except.ok (some first), st1) =>
    match first with
    | .ident _ nm =>
      match declSkipWs fuel st1 with
      | (Except.error e, st2) => (Except.error e, st2)
      | (Except.ok tok?, st2) =>
        if tok?.elim false (fun t => isStrTok t [':']) then
          match declCollect fuel [] st2 with
          | (Except.error e, st3) => (Except.error e, st3)
          | (Except.ok vals, st3) =>
            let value := jsTrim (toStrL (stripImportant vals))
            (Except.ok (some { property := nm, value := value, position := none }), st3)
        else (Except.ok none, st2)
    | _ => (Except.ok none, st1)

/-- The `list` collection of `consumeAListOfDeclarations`' `Ident` arm:
`while ((inputToken = this.consumeAToken()) && inputToken !== ";")
list.push(inputToken)`. -/
def collectDecl (fuel : Nat) (acc : List Tok) (st : PState) : Res (List Tok) × PState :=
  match fuel with
  | 0 => (Except.error fuelMsg, st)
  | fuel+1 =>
    match consumeATokenP st with
    | (Except.error e, st') => (Except.error e, st')
    | (Except.ok none, st') => (Except.ok acc, st')
    | (Except.ok (some t), st') =>
      if isStrTok t [';'] then (Except.ok acc, st')
      else collectDecl fuel (acc ++ [t]) st'

/-- The parse-error recovery loop of `consumeAListOfDeclarations`:
`while ((inputToken = this.consumeAComponentValue(inputToken)) &&
inputToken !== ";") inputToken = this.consumeAToken();`  (when
`consumeAToken` returns `undefined` the next `consumeAComponentValue`
returns it and the falsy test exits). -/
def recoverLoop (fuel : Nat) (cur : Tok) (st : PState) : Res Unit × PState :=
  match fuel with
  | 0 => (Except.error fuelMsg, st)
  | fuel+1 =>
    match consumeAComponentValue fuel cur st with
    | (Except.error e, st1) => (Except.error e, st1)
    | (Except.ok cv, st1) =>
      if isStrTok cv [';'] then (Except.ok (), st1)
      else
        match consumeATokenP st1 with
        | (Except.error e, st2) => (Except.error e, st2)
        | (Except.ok none, st2) => (Except.ok (), st2)
        | (Except.ok (some t2), st2) => recoverLoop fuel t2 st2

/-- The token loop of `consumeAListOfDeclarations` (§5.4.4). -/
def lodLoop (fuel : Nat) (acc : List DeclOrAt) (st : PState) : Res (List DeclOrAt) × PState :=
  match fuel with
  | 0 => (Except.error fuelMsg, st)
  | fuel+1 =>
    match consumeATokenP st with
    | (Except.error e, st') => (Except.error e, st')
    | (Except.ok none, st') => (Except.ok acc, st')
    | (Except.ok (some t), st') =>
      if isStrTok t [' '] ∨ isStrTok t [';'] then lodLoop fuel acc st'
      else
        match t with
        | .atKeyword _ nm =>
          match consumeAnAtRule fuel nm st' with
          | (Except.error e, st2) => (Except.error e, st2)
          | (Except.ok r, st2) => lodLoop fuel (acc ++ [DeclOrAt.at r]) st2
        | .ident _ _ =>
          match collectDecl fuel [t] st' with
          | (Except.error e, st2) => (Except.error e, st2)
          | (Except.ok list, st2) =>
            match withTokens list (consumeADeclaration fuel) st2 with
            | (Except.error e, st3) => (Except.error e, st3)
            | (Except.ok (some d), st3) => lodLoop fuel (acc ++ [DeclOrAt.decl d]) st3
            | (Except.ok none, st3) => lodLoop fuel acc st3
        | _ =>
          match recoverLoop fuel t st' with
          | (Except.error e, st2) => (Except.error e, st2)
          | (Except.ok _, st2) => lodLoop fuel acc st2

/-- `consumeAListOfDeclarations()` (§5.4.4). -/
def consumeAListOfDeclarations (fuel : Nat) (st : PState) : Res (List DeclOrAt) × PState :=
  lodLoop fuel [] st

/-- The selector accumulation of `interpretAsStyleRule`: stringify prelude
tokens into `selector`, flushing (trimmed, dropped when empty) at each
`","`. -/
def selSplit : List Tok → Str → List Str → List Str
  | [], cur, acc =>
    let c := jsTrim cur
    if c = [] then acc else acc ++ [c]
  | t :: ts, cur, acc =>
    if isStrTok t [','] then
      let c := jsTrim cur
      selSplit ts [] (if c = [] then acc else acc ++ [c])
    else selSplit ts (cur ++ toStr t) acc

/-- `.values` of a block token (the blocks stored in rules are always
`simpleBlock`s; the default is unreachable). -/
def blockValues : Tok → List Tok
  | .simpleBlock _ vs => vs
  | _ => []

/-- `interpretAsStyleRule(qualifiedRule)` (§8.1). -/
def interpretAsStyleRule (fuel : Nat) (prelude : List Tok) (block : Tok)
    (position : Option Span) (st : PState) : Res StyleRuleR × PState :=
  let selectors := selSplit prelude [] []
  match withTokens (blockValues block) (consumeAListOfDeclarations fuel) st with
  | (Except.error e, st1) => (Except.error e, st1)
  | (Except.ok ds, st1) =>
    (Except.ok { selectors := selectors, declarations := ds, position := position }, st1)

/-- `importParser`: stringify and trim the prelude. -/
def importParserF (a : AtRuleR) : CSSRule :=
  .importRule (jsTrim (toStrL a.prelude)) a.position

/-- The `forEach` of `keyframesParser`: qualified inner rules produce
keyframes (prelude split on `","`, block parsed as declarations and filtered
to `Decl`s); other rules are discarded. -/
def kfLoop (fuel : Nat) : List RuleR → List KeyframeR → PState → Res (List KeyframeR) × PState
  | [], acc, st => (Except.ok acc, st)
  | r :: rest, acc, st =>
    match r with
    | .qualified prelude block _ =>
      let values := (split prelude [',']).map arrayToString
      match withTokens (blockValues block) (consumeAListOfDeclarations fuel) st with
      | (Except.error e, st1) => (Except.error e, st1)
      | (Except.ok ds, st1) =>
        kfLoop fuel rest
          (acc ++ [{ values := values,
                     declarations := (ds.filter isDeclaration).filterMap
                       (fun d => match d with | .decl d' => some d' | .at _ => none) }]) st1
    | .at _ => kfLoop fuel rest acc st

/-- `keyframesParser`: name from the prelude; inner rules from a sub-stream
over the block's values (an absent block would make JS throw reading
`.values` of `undefined`). -/
def keyframesParserF (fuel : Nat) (a : AtRuleR) (st : PState) : Res CSSRule × PState :=
  let name := jsTrim (toStrL a.prelude)
  match a.block with
  | none => (Except.error typeErrMsg, st)
  | some blk =>
    match withTokens (blockValues blk) (consumeAListOfRules fuel) st with
    | (Except.error e, st1) => (Except.error e, st1)
    | (Except.ok rules, st1) =>
      match kfLoop fuel rules [] st1 with
      | (Except.error e, st2) => (Except.error e, st2)
      | (Except.ok frames, st2) => (Except.ok (.keyframes name frames), st2)

/-- The registered at-rule parsers shipped with the source. -/
inductive Handler where
  | importH | keyframesH
  deriving DecidableEq, Repr

def keywordOf : Handler → Str
  | .importH => "import".toList
  | .keyframesH => "keyframes".toList

/-- `this.atRuleParsers[rule.name]`: a JS object keyed by keyword; a later
`addAtRuleParser` with the same keyword overwrites, hence the reversed
search. -/
def regLookup (reg : List Handler) (nm : Str) : Option Handler :=
  reg.reverse.find? (fun h => keywordOf h = nm)

/-- Both shipped handlers registered, in the order used by the test
harness. -/
def fullReg : List Handler := [.importH, .keyframesH]

/-- The `forEach` of `parseACSSStylesheet`: qualified rules are interpreted
as style rules; at-rules are dispatched through the registry (discarded when
no handler matches); a falsy handler result would be dropped (the shipped
handlers always return an object). -/
def cssLoop (fuel : Nat) (reg : List Handler) :
    List RuleR → List CSSRule → PState → Res (List CSSRule) × PState
  | [], acc, st => (Except.ok acc, st)
  | r :: rest, acc, st =>
    match r with
    | .qualified prelude block pos =>
      match interpretAsStyleRule fuel prelude block pos st with
      | (Except.error e, st1) => (Except.error e, st1)
      | (Except.ok sr, st1) => cssLoop fuel reg rest (acc ++ [CSSRule.style sr]) st1
    | .at a =>
      match regLookup reg a.name with
      | some .importH => cssLoop fuel reg rest (acc ++ [importParserF a]) st
      | some .keyframesH =>
        match keyframesParserF fuel a st with
        | (Except.error e, st1) => (Except.error e, st1)
        | (Except.ok kr, st1) => cssLoop fuel reg rest (acc ++ [kr]) st1
      | none => cssLoop fuel reg rest acc st

/-- `parseACSSStylesheet(text)` (§8): parse the generic stylesheet, then
rewrite its rules, preserving `parsingErrors`. -/
def parseACSSStylesheet (reg : List Handler) (text : Str) : Res CSSStylesheetR × PState :=
  match parseAStylesheet text with
  | (Except.error e, st) => (Except.error e, st)
  | (Except.ok sheet, st) =>
    match cssLoop (pFuel text) reg sheet.rules [] st with
    | (Except.error e, st1) => (Except.error e, st1)
    | (Except.ok rules, st1) =>
      (Except.ok { rules := rules, parsingErrors := sheet.parsingErrors }, st1)

end CssJs

namespace CssJs

/-! ## Specification-side predicates (used only in theorem statements) -/

/-- A plain single-quoted-string content character: not the quote, not a
backslash, not a form feed, not a line terminator — such characters are
consumed one-for-one by the string regex. -/
def goodStrChar (c : Char) : Bool :=
  !(c = '\'' || c = '\\' || c = '\x0c' || isLineTerm c)

/-- A separator test matching the parser's `","` comparison. -/
def isComma (t : Tok) : Bool := isStrTok t [',']

/-- Number of maximal nonempty runs of non-comma tokens (the number of
nonempty comma-separated groups). -/
def countGroupsAux : List Tok → Bool → Nat
  | [], _ => 0
  | t :: ts, inRun =>
    if isComma t then countGroupsAux ts false
    else (if inRun then 0 else 1) + countGroupsAux ts true

def countGroups (l : List Tok) : Nat := countGroupsAux l false

/-- No two adjacent commas. -/
def noDoubleComma : List Tok → Bool
  | [] => true
  | [_] => true
  | t :: u :: ts => !(isComma t && isComma u) && noDoubleComma (u :: ts)

/-- Every comma-separated group (except possibly a trailing empty one) is
nonempty: no leading comma and no two adjacent commas. -/
def noEmptyGroups (l : List Tok) : Bool :=
  (match l with | [] => true | t :: _ => !isComma t) && noDoubleComma l

/-- Tokens that are neither simple blocks nor function objects — everything
the tokenizer itself can emit. -/
def TokFlat : Tok → Prop
  | .simpleBlock _ _ => False
  | .functionObject _ _ => False
  | _ => True

/-- Balance of a component-value tree: a simple block's values never contain
the matching closing token and all nested blocks are balanced too. -/
inductive Balanced : Tok → Prop where
  | flat (t : Tok) : TokFlat t → Balanced t
  | block (a : Assoc) (vs : List Tok) :
      (∀ v ∈ vs, Balanced v) → (∀ v ∈ vs, ¬ isStrTok v [closeChar a] = true) →
      Balanced (.simpleBlock a vs)
  | fn (n : Str) (cs : List Tok) : (∀ v ∈ cs, Balanced v) → Balanced (.functionObject n cs)

/-- Balance of a generic rule: its prelude values and its block. -/
def RuleBalanced : RuleR → Prop
  | .qualified prelude block _ => (∀ v ∈ prelude, Balanced v) ∧ Balanced block
  | .at a => (∀ v ∈ a.prelude, Balanced v) ∧ (∀ b, a.block = some b → Balanced b)

/-- The `position` carried by a generic rule. -/
def rulePos : RuleR → Option Span
  | .qualified _ _ p => p
  | .at a => a.position

/-- The `position` carried by a declaration-list entry. -/
def declOrAtPos : DeclOrAt → Option Span
  | .decl d => d.position
  | .at a => a.position

/-- A CSS-mode rule carries no position anywhere: not on the rule and not on
any declaration inside it. -/
def CssNoPos : CSSRule → Prop
  | .style r => r.position = none ∧ ∀ d ∈ r.declarations, declOrAtPos d = none
  | .importRule _ p => p = none
  | .keyframes _ frames => ∀ f ∈ frames, ∀ d ∈ f.declarations, d.position = none

/-- Discriminates the `rule.type === "qualified-rule"` test of
`keyframesParser`. -/
def isQualifiedRule : RuleR → Bool
  | .qualified _ _ _ => true
  | .at _ => false

/-- The prelude of a generic rule. -/
def rulePrelude : RuleR → List Tok
  | .qualified p _ _ => p
  | .at a => a.prelude

end CssJs

namespace CssJs

/-! ## Claim C10 -/

/-- C10: for every input text, the stylesheet returned by `parseAStylesheet`
and the CSS stylesheet returned by `parseACSSStylesheet` carry an empty
`parsingErrors` list — no anomaly ever appends to it (every construction
site uses the literal `[]`, and the CSS layer only forwards it). -/
theorem c10_parsing_errors_always_empty :
    (∀ text sheet st', parseAStylesheet text = (Except.ok sheet, st') →
      sheet.parsingErrors = []) ∧
    (∀ reg text cs st', parseACSSStylesheet reg text = (Except.ok cs, st') →
      cs.parsingErrors = []) := by
  have h1 : ∀ text sheet st', parseAStylesheet text = (Except.ok sheet, st') →
      sheet.parsingErrors = [] := by
    intro text sheet st' h
    unfold parseAStylesheet at h
    rcases hr : consumeAListOfRules (pFuel text) (resetSt text) with ⟨r, st2⟩
    rw [hr] at h
    cases r with
    | error e => simp at h
    | ok rules =>
      simp only [Prod.mk.injEq, Except.ok.injEq] at h
      rw [← h.1]
  refine ⟨h1, ?_⟩
  intro reg text cs st' h
  unfold parseACSSStylesheet at h
  rcases hps : parseAStylesheet text with ⟨r, st2⟩
  rw [hps] at h
  cases r with
  | error e => simp at h
  | ok sheet =>
    dsimp only at h
    rcases hcl : cssLoop (pFuel text) reg sheet.rules [] st2 with ⟨r2, st3⟩
    rw [hcl] at h
    cases r2 with
    | error e => simp at h
    | ok rules =>
      simp only [Prod.mk.injEq, Except.ok.injEq] at h
      rw [← h.1]
      exact h1 text sheet st2 hps

/-- Witness for C10 at a concrete input. -/
theorem c10_witness :
    ({ rules := [RuleR.qualified [Tok.ident ['a'] ['a']] (Tok.simpleBlock .brace []) none],
       parsingErrors := [] } : StylesheetR).parsingErrors = [] :=
  c10_parsing_errors_always_empty.1 ("a{}".toList) _ _ rfl

/-! ## Claim C7 -/

/-- C7, corrected: `with` restores the saved token source on every exit path
(the `finally` covers the error path as well, and the result — value or
raised error — is the action's); `start`/`end` raise while `posDisabled` is
installed; but on exit `with` restores `start`/`end` to the base
implementations *unconditionally*, not to their previous values. -/
theorem c7_with_restores_amended :
    (∀ (α : Type) (toks : List Tok) (action : PState → Res α × PState) (st : PState),
      (withTokens toks action st).2.source = st.source ∧
      (withTokens toks action st).2.posDisabled = false ∧
      (withTokens toks action st).1 =
        (action { st with source := .arr toks 0, posDisabled := true }).1) ∧
    (∀ st : PState, st.posDisabled = true →
      (startP st).1 = Except.error subStreamMsg ∧
      (endP st).1 = Except.error subStreamMsg) := by
  constructor
  · intro α toks action st
    rcases h : action { st with source := .arr toks 0, posDisabled := true } with ⟨r, st2⟩
    simp [withTokens, h]
  · intro st h
    simp [startP, endP, h]

/-- Witness for C7 at concrete inputs. -/
theorem c7_witness :
    (withTokens [] (fun s => (Except.ok 0, s)) (resetSt ['x'])).2.source = TokSource.base ∧
    (startP { (resetSt []) with posDisabled := true }).1 = Except.error subStreamMsg :=
  ⟨(c7_with_restores_amended.1 Nat [] (fun s => (Except.ok 0, s)) (resetSt ['x'])).1,
   (c7_with_restores_amended.2 { (resetSt []) with posDisabled := true } rfl).1⟩

/-- Counterexample for C7 as stated: the state below is exactly the parser's
state inside an outer `with` (as installed by `interpretAsStyleRule`) after a
nested `with` (as used by `consumeAListOfDeclarations` for a declaration)
has completed.  The outer sub-stream is still active (`source` is still the
array), yet `start()` succeeds, because the inner `with`'s `finally` ran
`this.start = super.start` rather than restoring the throwing override. -/
theorem c7_counterexample :
    (withTokens [] (fun s => (Except.ok 0, s))
        { (resetSt ['x']) with source := .arr [Tok.str [';']] 0, posDisabled := true }).2.source =
      TokSource.arr [Tok.str [';']] 0 ∧
    (withTokens [] (fun s => (Except.ok 0, s))
        { (resetSt ['x']) with source := .arr [Tok.str [';']] 0, posDisabled := true }).2.posDisabled
      = false ∧
    (startP ((withTokens [] (fun s => (Except.ok 0, s))
        { (resetSt ['x']) with source := .arr [Tok.str [';']] 0, posDisabled := true }).2)).1 =
      Except.ok { line := 1, column := 1 } :=
  ⟨rfl, rfl, rfl⟩

/-! ## Claim C8 -/

/-- C8, code bug: after `U+` and `-`, the source consumes at most six hex
digits for `end` but computes its value with
`this.text.substr(hexStart, hexEnd)` — `substr` takes a *length*, so the
slice runs past the consumed digits and `parseInt` keeps reading hex
characters that were never consumed.  On `U+0-1234567` the seventh digit
`7` is left in the stream (it becomes the next token) yet still contributes
to `end`: the code yields `end = 0x1234567 = 19088743` where the claimed
behaviour gives `0x123456 = 1193046`.  The claim's own examples, with no
hex digit following the consumed range, evaluate correctly. -/
theorem c8_unicode_range_end_bug :
    tokenizeToks ("U+0-1234567".toList) =
      [Tok.unicodeRange ("U+0-123456".toList) 0 19088743, Tok.num ['7']] ∧
    tokenizeToks ("U+0025-00FF".toList) =
      [Tok.unicodeRange ("U+0025-00FF".toList) 37 255] ∧
    tokenizeToks ("U+4??".toList) =
      [Tok.unicodeRange ("U+4??".toList) 1024 1279] ∧
    (19088743 : Nat) ≠ 0x123456 :=
  ⟨rfl, rfl, rfl, by decide⟩

/-! ## Claim C1 -/

set_option maxHeartbeats 1000000 in
/-- C1, code bug: `consumeADeclaration` does strip a trailing
`! important` from the value, but (a) the returned `Decl` record carries no
`important` field at all — the internally computed `isImportant` flag is
discarded, so `a: b !important` and `a: b` produce *identical* declarations
— and (b) the comparison is `name === "important"`, case-sensitive, so
`!IMPORTANT` is not stripped, contradicting the ASCII-case-insensitive
behaviour the claim (and the source's own comment) describe.  The token
lists below are exactly what `consumeAListOfDeclarations` collects for
`a: b !important`, `a: b` and `a: b ! IMPORTANT`. -/
theorem c1_important_flag_dropped :
    (withTokens [Tok.ident ['a'] ['a'], Tok.str [':'], Tok.str [' '], Tok.ident ['b'] ['b'],
        Tok.str [' '], Tok.delim ['!'], Tok.ident ("important".toList) ("important".toList)]
      (consumeADeclaration 32) (resetSt [])).1 =
      Except.ok (some { property := ['a'], value := ['b'], position := none }) ∧
    (withTokens [Tok.ident ['a'] ['a'], Tok.str [':'], Tok.str [' '], Tok.ident ['b'] ['b']]
      (consumeADeclaration 32) (resetSt [])).1 =
      Except.ok (some { property := ['a'], value := ['b'], position := none }) ∧
    (withTokens [Tok.ident ['a'] ['a'], Tok.str [':'], Tok.str [' '], Tok.ident ['b'] ['b'],
        Tok.str [' '], Tok.delim ['!'], Tok.str [' '],
        Tok.ident ("IMPORTANT".toList) ("IMPORTANT".toList)]
      (consumeADeclaration 32) (resetSt [])).1 =
      Except.ok (some { property := ['a'], value := ("b ! IMPORTANT".toList), position := none }) :=
  ⟨rfl, rfl, rfl⟩

end CssJs

namespace CssJs

/-! ## Counterexamples for C2, C3, C9, C6, C4, C5 -/

/-- Counterexample for C2 as stated: on `"\z` (an out-of-grammar escape) the
string regex fails, `consumeAStringToken` returns `null`, and tokenization
aborts with *no* tokens — the concatenation of the stringifications is empty
and cannot reconstruct the nonempty input (which contains no comment and no
whitespace, so neither allowed discrepancy applies). -/
theorem c2_counterexample :
    toStrL (tokenizeToks (['"', '\\', 'z'] : Str)) = [] ∧ ((['"', '\\', 'z'] : Str) : Str) ≠ [] ∧
    ((['"', '\\', 'z'] : Str) : Str).all (fun c => !isJsWs c) = true ∧
    toStrL (tokenizeToks (['"', '\\', 'z'] : Str)) ≠ (['"', '\\', 'z'] : Str) := by
  refine ⟨rfl, by decide, by decide, by decide⟩

/-- Counterexample for C3 as stated: on `'a<LF>b'` the string content
reaches an unescaped newline, but `consumeAStringToken` does **not** return
`None`: the regexes carry the `m` flag, so their trailing `$` matches just
before the newline and a `String` token with source `'a` is produced;
tokenization then continues at the newline. -/
theorem c3_counterexample :
    consumeAStringToken ("'a\nb'".toList) 0 = some (.string ['\'', 'a'] ['a'], 2) ∧
    tokenizeToks ("'a\nb'".toList) =
      [.string ['\'', 'a'] ['a'], .str [' '], .ident ['b'] ['b'], .string ['\''] []] :=
  ⟨rfl, rfl⟩

/-- Counterexample for C9 as stated: in `a /*x*/ b` the two whitespace runs
are separated only by a comment; the comment is skipped by a recursive
`consumeAToken` call, so the tokenizer emits two *adjacent* Whitespace
tokens.  And on `"\z ` tokenization aborts before the whitespace run, which
therefore yields no Whitespace token at all. -/
theorem c9_counterexample :
    tokenizeToks ("a /*x*/ b".toList) =
      [.ident ['a'] ['a'], .str [' '], .str [' '], .ident ['b'] ['b']] ∧
    tokenizeToks ['"', '\\', 'z', ' '] = [] :=
  ⟨rfl, rfl⟩

/-- Counterexample for C6 as stated: an unmatched `}` at the top level is
*not* discarded — `consumeAListOfRules` feeds it to `consumeAQualifiedRule`
as a seed and it becomes part of the rule's prelude. -/
theorem c6_counterexample :
    (parseAStylesheet ("\x7da\x7b\x7d".toList)).1 =
      Except.ok { rules := [RuleR.qualified [Tok.str ['}'], Tok.ident ['a'] ['a']]
                    (Tok.simpleBlock .brace []) none], parsingErrors := [] } :=
  rfl

set_option maxHeartbeats 4000000 in
/-- Counterexample for C4 as stated: this draft has no `debug` option at all
and never attaches positions.  With the parser exactly as in the source
(where the claimed `debug` default would be "on"), the produced style rule,
its declaration, and a produced at-rule all carry `position = none`. -/
theorem c4_counterexample :
    (parseACSSStylesheet fullReg ("a{b:c}".toList)).1 =
      Except.ok { rules := [CSSRule.style
                             { selectors := [['a']],
                               declarations := [DeclOrAt.decl
                                 { property := ['b'], value := ['c'], position := none }],
                               position := none }],
                  parsingErrors := [] } ∧
    (parseAStylesheet ("@i x;".toList)).1 =
      Except.ok { rules := [RuleR.at { name := ['i'],
                                       prelude := [Tok.str [' '], Tok.ident ['x'] ['x']],
                                       block := none, position := none }],
                  parsingErrors := [] } :=
  ⟨rfl, rfl⟩

/-- Counterexample for C5 as stated: an inner keyframe rule whose prelude is
a single `","` has **zero** comma-separated groups, yet `split` pushes one
group containing the comma itself, so the keyframe's `values` list has one
entry (`","`).  The at-rule below is what `parseAStylesheet` produces for
`@keyframes n{,{}}`. -/
theorem c5_counterexample :
    (keyframesParserF 32
        { name := "keyframes".toList, prelude := [Tok.ident ['n'] ['n']],
          block := some (Tok.simpleBlock .brace [Tok.str [','], Tok.simpleBlock .brace []]),
          position := none }
        (resetSt [])).1 =
      Except.ok (CSSRule.keyframes ['n'] [{ values := [[',']], declarations := [] }]) ∧
    split [Tok.str [',']] [','] = [[Tok.str [',']]] ∧
    countGroups [Tok.str [',']] = 0 :=
  ⟨rfl, rfl, rfl⟩

end CssJs

namespace CssJs

/-! ## Basic lemmas about the scanning primitives -/

theorem get?_lt {s : Str} {n : Nat} {c : Char} (h : s.get? n = some c) : n < s.length := by
  obtain ⟨hlt, -⟩ := List.get?_eq_some.mp h
  exact hlt

theorem drop_cons_get? {s : Str} {n : Nat} {c : Char} (h : s.get? n = some c) :
    s.drop n = c :: s.drop (n+1) := by
  obtain ⟨hlt, hg⟩ := List.get?_eq_some.mp h
  rw [List.drop_eq_getElem_cons hlt]
  simp only [List.get_eq_getElem] at hg
  rw [hg]

theorem jsSub_nil (s : Str) (a : Nat) : jsSub s a a = [] := by
  simp [jsSub]

theorem jsSub_of_le {s : Str} {a b : Nat} (h : a ≤ b) :
    jsSub s a b = (s.drop a).take (b - a) := by
  simp [jsSub, Nat.min_eq_left h, Nat.max_eq_right h]

theorem jsSub_step {s : Str} {a b : Nat} {c : Char} (hab : a < b) (h : s.get? a = some c) :
    jsSub s a b = c :: jsSub s (a+1) b := by
  rw [jsSub_of_le (Nat.le_of_lt hab), jsSub_of_le hab, drop_cons_get? h]
  have hba : b - a = (b - (a+1)) + 1 := by omega
  rw [hba, List.take_succ_cons]

theorem jsSub_single {s : Str} {a : Nat} {c : Char} (h : s.get? a = some c) :
    jsSub s a (a+1) = [c] := by
  rw [jsSub_step (Nat.lt_succ_self a) h, jsSub_nil]

theorem jsSub_two {s : Str} {a : Nat} {c d : Char}
    (h1 : s.get? a = some c) (h2 : s.get? (a+1) = some d) :
    jsSub s a (a+2) = [c, d] := by
  rw [jsSub_step (by omega) h1]
  have : a + 2 = (a + 1) + 1 := rfl
  rw [this, jsSub_single h2]

theorem jsSubstr_eq_jsSub (s : Str) (a k : Nat) : jsSubstr s a k = jsSub s a (a + k) := by
  rw [jsSub_of_le (Nat.le_add_right a k)]
  simp [jsSubstr]

theorem jsSub_all {p : Char → Bool} :
    ∀ (n : Nat) (s : Str) (a b : Nat), b - a ≤ n → a ≤ b →
      (∀ k, a ≤ k → k < b → ∃ c, s.get? k = some c ∧ p c = true) →
      (jsSub s a b).all p = true := by
  intro n
  induction n with
  | zero =>
    intro s a b hn hab _
    have : a = b := by omega
    subst this
    simp [jsSub_nil]
  | succ n ih =>
    intro s a b hn hab hp
    rcases Nat.eq_or_lt_of_le hab with heq | hlt
    · subst heq; simp [jsSub_nil]
    · obtain ⟨c, hc, hpc⟩ := hp a le_rfl hlt
      rw [jsSub_step hlt hc]
      simp only [List.all_cons, hpc, Bool.true_and]
      exact ih s (a+1) b (by omega) hlt (fun k hk1 hk2 => hp k (by omega) hk2)

theorem jsSub_ne_nil {s : Str} {a b : Nat} {c : Char}
    (hab : a < b) (h : s.get? a = some c) : jsSub s a b ≠ [] := by
  rw [jsSub_step hab h]
  exact List.cons_ne_nil c _

theorem wsEndF_ge : ∀ (fuel : Nat) (s : Str) (i : Nat), i ≤ wsEndF fuel s i := by
  intro fuel
  induction fuel with
  | zero => intro s i; exact Nat.le_refl i
  | succ fuel ih =>
    intro s i
    unfold wsEndF
    split
    · split
      · exact Nat.le_trans (Nat.le_succ i) (ih s (i+1))
      · exact Nat.le_refl i
    · exact Nat.le_refl i

theorem wsEndF_mem : ∀ (fuel : Nat) (s : Str) (i k : Nat), i ≤ k → k < wsEndF fuel s i →
    ∃ c, s.get? k = some c ∧ isJsWs c = true := by
  intro fuel
  induction fuel with
  | zero =>
    intro s i k hik hk
    simp only [wsEndF] at hk
    omega
  | succ fuel ih =>
    intro s i k hik hk
    unfold wsEndF at hk
    split at hk
    · rename_i c h
      split at hk
      · rename_i hc
        rcases Nat.eq_or_lt_of_le hik with heq | hlt
        · subst heq; exact ⟨c, h, hc⟩
        · exact ih s (i+1) k hlt hk
      · omega
    · omega

theorem wsEndF_stop : ∀ (fuel : Nat) (s : Str) (i : Nat), s.length < i + fuel →
    ∀ c, s.get? (wsEndF fuel s i) = some c → isJsWs c = false := by
  intro fuel
  induction fuel with
  | zero =>
    intro s i hlen c hc
    simp only [wsEndF] at hc
    have := get?_lt hc
    omega
  | succ fuel ih =>
    intro s i hlen c hc
    unfold wsEndF at hc
    split at hc
    · rename_i d h
      split at hc
      · exact ih s (i+1) (by omega) c hc
      · rename_i hd
        rw [h] at hc
        have hcd : d = c := by simpa using hc
        subst hcd
        simpa using hd
    · rename_i h
      rw [h] at hc
      exact absurd hc (by simp)

theorem wsEnd_ge (s : Str) (i : Nat) : i ≤ wsEnd s i := wsEndF_ge _ s i

theorem wsEnd_mem (s : Str) (i k : Nat) (hik : i ≤ k) (hk : k < wsEnd s i) :
    ∃ c, s.get? k = some c ∧ isJsWs c = true := wsEndF_mem _ s i k hik hk

theorem wsEnd_stop (s : Str) (i : Nat) :
    ∀ c, s.get? (wsEnd s i) = some c → isJsWs c = false := by
  intro c hc
  by_cases hi : i ≤ s.length
  · exact wsEndF_stop _ s i (by omega) c hc
  · unfold wsEnd at hc
    have h0 : s.length + 1 - i = 0 := by omega
    rw [h0] at hc
    simp only [wsEndF] at hc
    have := get?_lt hc
    omega

theorem wsEnd_gt {s : Str} {i : Nat} {c : Char}
    (h : s.get? i = some c) (hc : isJsWs c = true) : i < wsEnd s i := by
  have hi : i < s.length := get?_lt h
  unfold wsEnd
  have hfuel : s.length + 1 - i = (s.length - i) + 1 := by omega
  rw [hfuel]
  unfold wsEndF
  rw [h]
  dsimp only
  rw [if_pos hc]
  exact Nat.lt_of_lt_of_le (Nat.lt_succ_self i) (wsEndF_ge _ s (i+1))

theorem escRunF_plain : ∀ (fuel : Nat) (l : Str), l.length < fuel →
    (∀ c ∈ l, ¬ c = '\\') → escRunF fuel l = l := by
  intro fuel
  induction fuel with
  | zero => intro l h _; omega
  | succ fuel ih =>
    intro l hlen hp
    cases l with
    | nil => rfl
    | cons c r =>
      have hc : ¬ c = '\\' := hp c (List.mem_cons_self c r)
      simp only [escRunF, if_neg hc]
      rw [ih r (by simp at hlen; omega) (fun x hx => hp x (List.mem_cons_of_mem c hx))]

theorem escape_plain (l : Str) (hp : ∀ c ∈ l, ¬ c = '\\') : escape l = l :=
  escRunF_plain _ l (Nat.lt_succ_self _) hp

theorem escape_cons {c : Char} {t : Str} (hc : ¬ c = '\\') :
    escape (c :: t) = c :: escRunF (t.length + 1) t := by
  show escRunF ((c :: t).length + 1) (c :: t) = _
  have hl : (c :: t).length + 1 = (t.length + 1) + 1 := by simp
  rw [hl]
  simp only [escRunF, if_neg hc]

theorem asciiLower_eq_u {c : Char} (h : asciiLower c = 'u') : c = 'u' ∨ c = 'U' := by
  unfold asciiLower at h
  split at h
  case isTrue hr =>
    right
    simp only [Bool.and_eq_true, decide_eq_true_eq] at hr
    have h1 : 65 ≤ c.toNat := hr.1
    have h2 : c.toNat ≤ 90 := hr.2
    have hv : (Char.ofNat (c.toNat + 32)).toNat = c.toNat + 32 := by
      unfold Char.ofNat
      rw [dif_pos (Or.inl (by omega))]
      rfl
    have h117 : c.toNat + 32 = 117 := by rw [← hv, h]; rfl
    apply Char.ext
    apply UInt32.toNat.inj
    have hU : ('U' : Char).val.toNat = 85 := by decide
    have : c.val.toNat = c.toNat := rfl
    omega
  case isFalse hr => exact Or.inl h

end CssJs

namespace CssJs

/-! ## Shape lemmas for the token consumers -/

theorem isWs5_isJsWs {c : Char} (h : isWs5 c = true) : isJsWs c = true := by
  simp only [isWs5, Bool.or_eq_true, decide_eq_true_eq] at h
  rcases h with ((((h | h) | h) | h) | h) <;> subst h <;> decide

theorem hexRunEnd_ge (s : Str) : ∀ (n p : Nat), p ≤ hexRunEnd s p n := by
  intro n
  induction n with
  | zero => intro p; exact Nat.le_refl p
  | succ n ih =>
    intro p
    unfold hexRunEnd
    split
    · split
      · exact Nat.le_trans (Nat.le_succ p) (ih (p+1))
      · exact Nat.le_refl p
    · exact Nat.le_refl p

theorem nameEscEnd_ge {s : Str} {p e : Nat} (h : nameEscEnd s p = some e) : p + 2 ≤ e := by
  unfold nameEscEnd at h
  cases hd : s.get? (p+1) with
  | none => rw [hd] at h; exact absurd h (by simp)
  | some d =>
    rw [hd] at h
    dsimp only at h
    by_cases hhex : isHex d
    · rw [if_pos hhex] at h
      have hq : p + 1 + 1 ≤ hexRunEnd s (p+1) 6 := by
        unfold hexRunEnd
        rw [hd]
        dsimp only
        rw [if_pos hhex]
        exact hexRunEnd_ge s 5 (p+1+1)
      cases hw : s.get? (hexRunEnd s (p+1) 6) with
      | none => rw [hw] at h; dsimp only at h; simp only [Option.some.injEq] at h; omega
      | some w =>
        rw [hw] at h
        dsimp only at h
        by_cases hws : isJsWs w
        · rw [if_pos hws] at h; simp only [Option.some.injEq] at h; omega
        · rw [if_neg hws] at h; simp only [Option.some.injEq] at h; omega
    · rw [if_neg hhex] at h
      by_cases hda : d = '$' ∨ d = '\n'
      · rw [if_pos hda] at h; simp only [Option.some.injEq] at h; omega
      · rw [if_neg hda] at h; exact absurd h (by simp)

theorem nameRestF_ge : ∀ (fuel : Nat) (s : Str) (p : Nat), p ≤ nameRestF fuel s p := by
  intro fuel
  induction fuel with
  | zero => intro s p; exact Nat.le_refl p
  | succ fuel ih =>
    intro s p
    unfold nameRestF
    cases hget : s.get? p with
    | none => exact Nat.le_refl p
    | some c =>
      dsimp only
      by_cases h1 : isNameCont c || nonAscii c
      · rw [if_pos h1]
        exact Nat.le_trans (Nat.le_succ p) (ih s (p+1))
      · rw [if_neg h1]
        by_cases h2 : c = '\\'
        · rw [if_pos h2]
          cases hesc : nameEscEnd s p with
          | some e =>
            dsimp only
            exact Nat.le_trans (by have := nameEscEnd_ge hesc; omega) (ih s e)
          | none => exact Nat.le_refl p
        · rw [if_neg h2]

theorem matchName_some {s : Str} {i : Nat} {raw : Str} {e : Nat}
    (h : matchName s i = some (raw, e)) :
    i < e ∧ raw = jsSub s i e ∧ ∃ c rest, s.get? i = some c ∧ raw = c :: rest := by
  have key : ∀ (c₀ : Char) (f : Nat), s.get? i = some c₀ → i < f →
      (some (jsSub s i (nameRestF (s.length+1) s f), nameRestF (s.length+1) s f) :
        Option (Str × Nat)) = some (raw, e) →
      i < e ∧ raw = jsSub s i e ∧ ∃ c rest, s.get? i = some c ∧ raw = c :: rest := by
    intro c₀ f hc0 hif hsome
    simp only [Option.some.injEq, Prod.mk.injEq] at hsome
    obtain ⟨hraw, he⟩ := hsome
    have hfe : f ≤ nameRestF (s.length+1) s f := nameRestF_ge _ s f
    subst he
    refine ⟨by omega, hraw.symm, c₀, jsSub s (i+1) (nameRestF (s.length+1) s f), hc0, ?_⟩
    rw [← hraw, jsSub_step (by omega) hc0]
  unfold matchName at h
  by_cases hdash : s.get? i = some '-'
  · rw [if_pos hdash] at h
    dsimp only at h
    cases hgo : s.get? (i+1) with
    | none => rw [hgo] at h; exact absurd h (by simp)
    | some c =>
      rw [hgo] at h
      dsimp only at h
      by_cases h1 : isNameStart c || nonAscii c
      · rw [if_pos h1] at h
        dsimp only at h
        exact key '-' (i+1+1) hdash (by omega) h
      · rw [if_neg h1] at h
        by_cases h2 : c = '\\'
        · rw [if_pos h2] at h
          cases hesc : nameEscEnd s (i+1) with
          | none => rw [hesc] at h; exact absurd h (by simp)
          | some f =>
            rw [hesc] at h
            dsimp only at h
            exact key '-' f hdash (by have := nameEscEnd_ge hesc; omega) h
        · rw [if_neg h2] at h; exact absurd h (by simp)
  · rw [if_neg hdash] at h
    dsimp only at h
    cases hgo : s.get? i with
    | none => rw [hgo] at h; exact absurd h (by simp)
    | some c =>
      rw [hgo] at h
      dsimp only at h
      by_cases h1 : isNameStart c || nonAscii c
      · rw [if_pos h1] at h
        dsimp only at h
        have hk := key c (i+1) hgo (by omega) h
        rw [hgo] at hk
        exact hk
      · rw [if_neg h1] at h
        by_cases h2 : c = '\\'
        · rw [if_pos h2] at h
          cases hesc : nameEscEnd s i with
          | none => rw [hesc] at h; exact absurd h (by simp)
          | some f =>
            rw [hesc] at h
            dsimp only at h
            have hk := key c f hgo (by have := nameEscEnd_ge hesc; omega) h
            rw [hgo] at hk
            exact hk
        · rw [if_neg h2] at h; exact absurd h (by simp)

end CssJs

namespace CssJs

theorem urlLoopF_tk : ∀ (fuel : Nat) (s : Str) (start : Nat) (acc : Str) (p : Nat) (t : Tok)
    (n : Nat), urlLoopF fuel s start acc p = .tk t n → ∃ src u, t = .url src u := by
  intro fuel
  induction fuel with
  | zero => intro s start acc p t n h; exact absurd h (by simp [urlLoopF])
  | succ fuel ih =>
    intro s start acc p t n h
    unfold urlLoopF at h
    dsimp only at h
    split at h
    · simp only [ILRes.tk.injEq] at h
      exact ⟨_, _, h.1.symm⟩
    · split at h
      · simp only [ILRes.tk.injEq] at h
        exact ⟨_, _, h.1.symm⟩
      · split at h
        · split at h
          · simp only [ILRes.tk.injEq] at h
            exact ⟨_, _, h.1.symm⟩
          · exact absurd h (by simp)
        · split at h
          · exact absurd h (by simp)
          · split at h
            · exact absurd h (by simp)
            · exact ih s start _ _ t n h

theorem consumeAURLToken_tk {s : Str} {k : Nat} {t : Tok} {n : Nat}
    (h : consumeAURLToken s k = .tk t n) : ∃ src u, t = .url src u := by
  unfold consumeAURLToken at h
  dsimp only at h
  split at h
  · simp only [ILRes.tk.injEq] at h
    exact ⟨_, _, h.1.symm⟩
  · split at h
    · simp only [ILRes.tk.injEq] at h
      exact ⟨_, _, h.1.symm⟩
    · split at h
      · split at h
        · split at h
          · simp only [ILRes.tk.injEq] at h
            exact ⟨_, _, h.1.symm⟩
          · exact absurd h (by simp)
        · exact absurd h (by simp)
      · exact urlLoopF_tk _ s _ [] _ t n h

theorem consumeAStringToken_some {s : Str} {i : Nat} {t : Tok} {n : Nat}
    (h : consumeAStringToken s i = some (t, n)) :
    ∃ txt, t = .string (jsSub s i n) txt := by
  unfold consumeAStringToken at h
  split at h
  · rename_i b li _
    simp only [Option.some.injEq, Prod.mk.injEq] at h
    exact ⟨_, by rw [← h.1, ← h.2]⟩
  · exact absurd h (by simp)

theorem consumeAnIdentLikeToken_tk {s : Str} {i : Nat} {t : Tok} {n : Nat}
    (h : consumeAnIdentLikeToken s i = .tk t n) :
    TokFlat t ∧ (toStr t = jsSub s i n ∨ ∃ src u, t = .url src u) ∧ ∀ cs, t ≠ .str cs := by
  unfold consumeAnIdentLikeToken at h
  split at h
  · exact absurd h (by simp)
  · rename_i raw e hname
    split at h
    · split at h
      · obtain ⟨src, u, ht⟩ := consumeAURLToken_tk h
        subst ht
        exact ⟨trivial, Or.inr ⟨_, _, rfl⟩, fun cs => by simp⟩
      · simp only [ILRes.tk.injEq] at h
        obtain ⟨ht, hn⟩ := h
        subst ht; subst hn
        exact ⟨trivial, Or.inl rfl, fun cs => by simp⟩
    · simp only [ILRes.tk.injEq] at h
      obtain ⟨ht, hn⟩ := h
      subst ht; subst hn
      exact ⟨trivial, Or.inl rfl, fun cs => by simp⟩

theorem consumeAnIdentLikeToken_nul {s : Str} {i : Nat} {n : Nat}
    (h : consumeAnIdentLikeToken s i = .nul n) :
    n = i ∨ ∃ raw e, matchName s i = some (raw, e) ∧ listLower (escape raw) = "url".toList := by
  unfold consumeAnIdentLikeToken at h
  split at h
  · simp only [ILRes.nul.injEq] at h
    exact Or.inl h.symm
  · rename_i raw e hname
    split at h
    · split at h
      · rename_i hurl
        exact Or.inr ⟨raw, e, hname, hurl⟩
      · exact absurd h (by simp)
    · exact absurd h (by simp)

theorem not_url_of_head {s : Str} {i : Nat} {c : Char} {raw : Str} {e : Nat}
    (hc : s.get? i = some c) (hu : ¬ c = 'u') (hU : ¬ c = 'U') (hb : ¬ c = '\\')
    (hname : matchName s i = some (raw, e)) :
    ¬ listLower (escape raw) = "url".toList := by
  intro hurl
  obtain ⟨-, -, c', rest, hc', hraw⟩ := matchName_some hname
  rw [hc] at hc'
  have hcc : c' = c := by simpa using hc'.symm
  rw [hcc] at hraw
  rw [hraw, escape_cons hb] at hurl
  simp only [listLower, List.map_cons] at hurl
  have : asciiLower c = 'u' := by
    have := congrArg (fun l => l.head?) hurl
    simpa using this
  rcases asciiLower_eq_u this with h | h
  · exact hu h
  · exact hU h

theorem identLike_nul_next {s : Str} {i : Nat} {n : Nat} {c : Char}
    (hc : s.get? i = some c) (hu : ¬ c = 'u') (hU : ¬ c = 'U') (hb : ¬ c = '\\')
    (h : consumeAnIdentLikeToken s i = .nul n) : n = i := by
  rcases consumeAnIdentLikeToken_nul h with h1 | ⟨raw, e, hname, hurl⟩
  · exact h1
  · exact absurd hurl (not_url_of_head hc hu hU hb hname)

theorem consumeANumericToken_some {s : Str} {i : Nat} {t : Tok} {n : Nat}
    (h : consumeANumericToken s i = some (t, n)) :
    TokFlat t ∧ toStr t = jsSub s i n ∧ ∀ cs, t ≠ .str cs := by
  unfold consumeANumericToken at h
  split at h
  · exact absurd h (by simp)
  · split at h
    · simp only [Option.some.injEq, Prod.mk.injEq] at h
      obtain ⟨ht, hn⟩ := h
      subst ht; subst hn
      exact ⟨trivial, rfl, fun cs => by simp⟩
    · split at h
      · simp only [Option.some.injEq, Prod.mk.injEq] at h
        obtain ⟨ht, hn⟩ := h
        subst ht; subst hn
        exact ⟨trivial, rfl, fun cs => by simp⟩
      · simp only [Option.some.injEq, Prod.mk.injEq] at h
        obtain ⟨ht, hn⟩ := h
        subst ht; subst hn
        exact ⟨trivial, rfl, fun cs => by simp⟩

theorem consumeAUnicodeRangeToken_eq {s : Str} {i : Nat} {t : Tok} {n : Nat}
    (h : consumeAUnicodeRangeToken s (i+2) = (t, n)) :
    ∃ lo hi, t = .unicodeRange (jsSub s i n) lo hi := by
  unfold consumeAUnicodeRangeToken at h
  have h22 : i + 2 - 2 = i := by omega
  rw [h22] at h
  dsimp only at h
  split at h
  · simp only [Prod.mk.injEq] at h
    exact ⟨_, _, by rw [← h.1, ← h.2]⟩
  · split at h
    · simp only [Prod.mk.injEq] at h
      exact ⟨_, _, by rw [← h.1, ← h.2]⟩
    · simp only [Prod.mk.injEq] at h
      exact ⟨_, _, by rw [← h.1, ← h.2]⟩

end CssJs

namespace CssJs

/-- Everything the per-token claims need about one dispatch step: every
emitted token is flat (never a block or function object); a Whitespace token
covers a maximal nonempty whitespace run; and the stringification of every
token other than Whitespace and URL tokens is exactly the consumed span. -/
theorem dispatch1_tok : ∀ (s : Str) (i : Nat) (t : Tok) (n : Nat),
    dispatch1 s i = .tok t n →
    TokFlat t ∧
    (t = .str [' '] →
      i < n ∧ (∀ k, i ≤ k → k < n → ∃ c, s.get? k = some c ∧ isJsWs c = true) ∧
      (∀ c, s.get? n = some c → isJsWs c = false)) ∧
    (toStr t = jsSub s i n ∨ t = .str [' '] ∨ ∃ src u, t = .url src u) := by
  intro s i t n h
  unfold dispatch1 at h
  cases hc : s.get? i with
  | none => rw [hc] at h; exact absurd h (by simp)
  | some c =>
    rw [hc] at h
    dsimp only at h
    by_cases hq : c = '"' ∨ c = '\''
    · rw [if_pos hq] at h
      cases hstr : consumeAStringToken s i with
      | none => rw [hstr] at h; exact absurd h (by simp)
      | some pr =>
        obtain ⟨t0, n0⟩ := pr
        rw [hstr] at h
        dsimp only at h
        simp only [DStep.tok.injEq] at h
        obtain ⟨ht, hn⟩ := h
        subst ht; subst hn
        obtain ⟨txt, ht0⟩ := consumeAStringToken_some hstr
        subst ht0
        exact ⟨trivial, by simp, Or.inl rfl⟩
    · rw [if_neg hq] at h
      by_cases hp : c = '(' ∨ c = ')' ∨ c = ',' ∨ c = ':' ∨ c = ';' ∨ c = '[' ∨ c = ']' ∨
          c = '{' ∨ c = '}'
      · rw [if_pos hp] at h
        simp only [DStep.tok.injEq] at h
        obtain ⟨ht, hn⟩ := h
        subst ht; subst hn
        refine ⟨trivial, ?_, Or.inl ((jsSub_single hc).symm)⟩
        intro heq
        simp only [Tok.str.injEq, List.cons.injEq, and_true] at heq
        rcases hp with hp|hp|hp|hp|hp|hp|hp|hp|hp <;> (subst hp; exact absurd heq (by decide))
      · rw [if_neg hp] at h
        by_cases hh : c = '#'
        · rw [if_pos hh] at h
          cases hnm : matchName s (i+1) with
          | some pr =>
            obtain ⟨raw, e⟩ := pr
            rw [hnm] at h
            dsimp only at h
            simp only [DStep.tok.injEq] at h
            obtain ⟨ht, hn⟩ := h
            subst ht; subst hn
            exact ⟨trivial, by simp, Or.inl rfl⟩
          | none =>
            rw [hnm] at h
            dsimp only at h
            simp only [DStep.tok.injEq] at h
            obtain ⟨ht, hn⟩ := h
            subst ht; subst hn
            exact ⟨trivial, by simp, Or.inl ((jsSub_single hc).symm)⟩
        · rw [if_neg hh] at h
          by_cases hw : isWs5 c
          · rw [if_pos hw] at h
            simp only [DStep.tok.injEq] at h
            obtain ⟨ht, hn⟩ := h
            subst ht; subst hn
            refine ⟨trivial, ?_, Or.inr (Or.inl rfl)⟩
            intro _
            exact ⟨wsEnd_gt hc (isWs5_isJsWs hw),
              fun k hk1 hk2 => wsEnd_mem s i k hk1 hk2, wsEnd_stop s i⟩
          · rw [if_neg hw] at h
            by_cases ha : c = '@'
            · rw [if_pos ha] at h
              cases hnm : matchName s (i+1) with
              | some pr =>
                obtain ⟨raw, e⟩ := pr
                rw [hnm] at h
                dsimp only at h
                simp only [DStep.tok.injEq] at h
                obtain ⟨ht, hn⟩ := h
                subst ht; subst hn
                exact ⟨trivial, by simp, Or.inl rfl⟩
              | none =>
                rw [hnm] at h
                dsimp only at h
                simp only [DStep.tok.injEq] at h
                obtain ⟨ht, hn⟩ := h
                subst ht; subst hn
                exact ⟨trivial, by simp, Or.inl ((jsSub_single hc).symm)⟩
            · rw [if_neg ha] at h
              by_cases hb : c = '\\'
              · rw [if_pos hb] at h
                by_cases hnl : s.get? (i+1) = some '\n'
                · rw [if_pos hnl] at h
                  simp only [DStep.tok.injEq] at h
                  obtain ⟨ht, hn⟩ := h
                  subst ht; subst hn
                  subst hb
                  exact ⟨trivial, by simp, Or.inl ((jsSub_single hc).symm)⟩
                · rw [if_neg hnl] at h
                  cases hil : consumeAnIdentLikeToken s i with
                  | tk t0 n0 =>
                    rw [hil] at h
                    simp only [ilPlain, DStep.tok.injEq] at h
                    obtain ⟨ht, hn⟩ := h
                    subst ht; subst hn
                    obtain ⟨hflat, hdisj, hnstr⟩ := consumeAnIdentLikeToken_tk hil
                    exact ⟨hflat, fun heq => absurd heq (hnstr [' ']), by tauto⟩
                  | nul n0 => rw [hil] at h; exact absurd h (by simp [ilPlain])
                  | threw n0 => rw [hil] at h; exact absurd h (by simp [ilPlain])
              · rw [if_neg hb] at h
                by_cases hd : isDigitChar c
                · rw [if_pos hd] at h
                  cases hnum : consumeANumericToken s i with
                  | none => rw [hnum] at h; exact absurd h (by simp)
                  | some pr =>
                    obtain ⟨t0, n0⟩ := pr
                    rw [hnum] at h
                    dsimp only at h
                    simp only [DStep.tok.injEq] at h
                    obtain ⟨ht, hn⟩ := h
                    subst ht; subst hn
                    obtain ⟨hflat, hsrc, hnstr⟩ := consumeANumericToken_some hnum
                    exact ⟨hflat, fun heq => absurd heq (hnstr [' ']), Or.inl hsrc⟩
                · rw [if_neg hd] at h
                  by_cases hu : c = 'u' ∨ c = 'U'
                  · rw [if_pos hu] at h
                    by_cases hur : s.get? (i+1) = some '+' ∧
                        (s.get? (i+2)).elim false (fun d => isHex d || d = '?')
                    · rw [if_pos hur] at h
                      cases hrange : consumeAUnicodeRangeToken s (i+2) with
                      | mk t0 n0 =>
                        rw [hrange] at h
                        dsimp only at h
                        simp only [DStep.tok.injEq] at h
                        obtain ⟨ht, hn⟩ := h
                        subst ht; subst hn
                        obtain ⟨lo, hi, ht0⟩ := consumeAUnicodeRangeToken_eq hrange
                        subst ht0
                        exact ⟨trivial, by simp, Or.inl rfl⟩
                    · rw [if_neg hur] at h
                      cases hil : consumeAnIdentLikeToken s i with
                      | tk t0 n0 =>
                        rw [hil] at h
                        simp only [ilPlain, DStep.tok.injEq] at h
                        obtain ⟨ht, hn⟩ := h
                        subst ht; subst hn
                        obtain ⟨hflat, hdisj, hnstr⟩ := consumeAnIdentLikeToken_tk hil
                        exact ⟨hflat, fun heq => absurd heq (hnstr [' ']), by tauto⟩
                      | nul n0 => rw [hil] at h; exact absurd h (by simp [ilPlain])
                      | threw n0 => rw [hil] at h; exact absurd h (by simp [ilPlain])
                  · rw [if_neg hu] at h
                    by_cases hm : c = '$' ∨ c = '*' ∨ c = '^' ∨ c = '|' ∨ c = '~'
                    · rw [if_pos hm] at h
                      by_cases he : s.get? (i+1) = some '='
                      · rw [if_pos he] at h
                        simp only [DStep.tok.injEq] at h
                        obtain ⟨ht, hn⟩ := h
                        subst ht; subst hn
                        refine ⟨trivial, ?_, Or.inl ((jsSub_two hc he).symm)⟩
                        intro heq
                        simp at heq
                      · rw [if_neg he] at h
                        simp only [DStep.tok.injEq] at h
                        obtain ⟨ht, hn⟩ := h
                        subst ht; subst hn
                        exact ⟨trivial, by simp, Or.inl ((jsSub_single hc).symm)⟩
                    · rw [if_neg hm] at h
                      by_cases hmin : c = '-'
                      · rw [if_pos hmin] at h
                        cases hnum : consumeANumericToken s i with
                        | some pr =>
                          obtain ⟨t0, n0⟩ := pr
                          rw [hnum] at h
                          dsimp only at h
                          simp only [DStep.tok.injEq] at h
                          obtain ⟨ht, hn⟩ := h
                          subst ht; subst hn
                          obtain ⟨hflat, hsrc, hnstr⟩ := consumeANumericToken_some hnum
                          exact ⟨hflat, fun heq => absurd heq (hnstr [' ']), Or.inl hsrc⟩
                        | none =>
                          rw [hnum] at h
                          dsimp only at h
                          cases hil : consumeAnIdentLikeToken s i with
                          | tk t0 n0 =>
                            rw [hil] at h
                            simp only [DStep.tok.injEq] at h
                            obtain ⟨ht, hn⟩ := h
                            subst ht; subst hn
                            obtain ⟨hflat, hdisj, hnstr⟩ := consumeAnIdentLikeToken_tk hil
                            exact ⟨hflat, fun heq => absurd heq (hnstr [' ']), by tauto⟩
                          | threw n0 => rw [hil] at h; exact absurd h (by simp)
                          | nul n0 =>
                            rw [hil] at h
                            dsimp only at h
                            have hn0 : n0 = i := identLike_nul_next hc
                              (by subst hmin; decide) (by subst hmin; decide)
                              (by subst hmin; decide) hil
                            rw [hn0] at h
                            by_cases hcdc : jsSubstr s i 3 = "-->".toList
                            · rw [if_pos hcdc] at h
                              simp only [DStep.tok.injEq] at h
                              obtain ⟨ht, hn⟩ := h
                              subst ht; subst hn
                              refine ⟨trivial, by simp, Or.inl ?_⟩
                              rw [← jsSubstr_eq_jsSub]
                              exact hcdc.symm
                            · rw [if_neg hcdc] at h
                              rw [hc] at h
                              dsimp only at h
                              simp only [DStep.tok.injEq] at h
                              obtain ⟨ht, hn⟩ := h
                              subst ht; subst hn
                              exact ⟨trivial, by simp, Or.inl ((jsSub_single hc).symm)⟩
                      · rw [if_neg hmin] at h
                        by_cases hpd : c = '+' ∨ c = '.'
                        · rw [if_pos hpd] at h
                          cases hnum : consumeANumericToken s i with
                          | some pr =>
                            obtain ⟨t0, n0⟩ := pr
                            rw [hnum] at h
                            dsimp only at h
                            simp only [DStep.tok.injEq] at h
                            obtain ⟨ht, hn⟩ := h
                            subst ht; subst hn
                            obtain ⟨hflat, hsrc, hnstr⟩ := consumeANumericToken_some hnum
                            exact ⟨hflat, fun heq => absurd heq (hnstr [' ']), Or.inl hsrc⟩
                          | none =>
                            rw [hnum] at h
                            dsimp only at h
                            simp only [DStep.tok.injEq] at h
                            obtain ⟨ht, hn⟩ := h
                            subst ht; subst hn
                            exact ⟨trivial, by simp, Or.inl ((jsSub_single hc).symm)⟩
                        · rw [if_neg hpd] at h
                          by_cases hsl : c = '/'
                          · rw [if_pos hsl] at h
                            cases hcm : matchComment s i with
                            | some e => rw [hcm] at h; exact absurd h (by simp)
                            | none =>
                              rw [hcm] at h
                              dsimp only at h
                              simp only [DStep.tok.injEq] at h
                              obtain ⟨ht, hn⟩ := h
                              subst ht; subst hn
                              exact ⟨trivial, by simp, Or.inl ((jsSub_single hc).symm)⟩
                          · rw [if_neg hsl] at h
                            by_cases hlt : c = '<'
                            · rw [if_pos hlt] at h
                              by_cases hcdo : jsSubstr s i 4 = "<!--".toList
                              · rw [if_pos hcdo] at h
                                simp only [DStep.tok.injEq] at h
                                obtain ⟨ht, hn⟩ := h
                                subst ht; subst hn
                                refine ⟨trivial, by simp, Or.inl ?_⟩
                                rw [← jsSubstr_eq_jsSub]
                                exact hcdo.symm
                              · rw [if_neg hcdo] at h
                                simp only [DStep.tok.injEq] at h
                                obtain ⟨ht, hn⟩ := h
                                subst ht; subst hn
                                exact ⟨trivial, by simp, Or.inl ((jsSub_single hc).symm)⟩
                            · rw [if_neg hlt] at h
                              cases hil : consumeAnIdentLikeToken s i with
                              | tk t0 n0 =>
                                rw [hil] at h
                                simp only [ilOrDelim, DStep.tok.injEq] at h
                                obtain ⟨ht, hn⟩ := h
                                subst ht; subst hn
                                obtain ⟨hflat, hdisj, hnstr⟩ := consumeAnIdentLikeToken_tk hil
                                exact ⟨hflat, fun heq => absurd heq (hnstr [' ']), by tauto⟩
                              | threw n0 =>
                                rw [hil] at h
                                exact absurd h (by simp [ilOrDelim])
                              | nul n0 =>
                                rw [hil] at h
                                have hn0 : n0 = i := identLike_nul_next hc
                                  (fun hx => hu (Or.inl hx)) (fun hx => hu (Or.inr hx)) hb hil
                                rw [hn0] at h
                                simp only [ilOrDelim] at h
                                rw [hc] at h
                                dsimp only at h
                                simp only [DStep.tok.injEq] at h
                                obtain ⟨ht, hn⟩ := h
                                subst ht; subst hn
                                exact ⟨trivial, by simp, Or.inl ((jsSub_single hc).symm)⟩

end CssJs

namespace CssJs

theorem tokStepF_tok : ∀ (fuel : Nat) (s : Str) (i : Nat) (t : Tok) (j n : Nat),
    tokStepF fuel s i = .tok t j n → dispatch1 s j = .tok t n := by
  intro fuel
  induction fuel with
  | zero => intro s i t j n h; exact absurd h (by simp [tokStepF])
  | succ fuel ih =>
    intro s i t j n h
    unfold tokStepF at h
    cases hd : dispatch1 s i with
    | comment e => rw [hd] at h; exact ih s e t j n h
    | tok t0 n0 =>
      rw [hd] at h
      simp only [TStep.tok.injEq] at h
      obtain ⟨ht, hj, hn⟩ := h
      subst ht; subst hn
      rw [← hj]
      exact hd
    | halt n0 => rw [hd] at h; exact absurd h (by simp)
    | threw n0 => rw [hd] at h; exact absurd h (by simp)

theorem tokStep_tok {s : Str} {i : Nat} {t : Tok} {j n : Nat}
    (h : tokStep s i = .tok t j n) : dispatch1 s j = .tok t n :=
  tokStepF_tok _ s i t j n h

/-- C2, corrected: per-token round-trip.  Whenever `consumeAToken` produces a
token `t` (with dispatch start `j`, past any skipped comments, and end `n`),
`toString(t)` is exactly the consumed substring, except that a Whitespace
token stands for a nonempty all-whitespace run (collapsed to a single
space), and except for URL tokens, whose reported `source` is anchored 4
characters before the consumed `(` (correct only for a literally spelled
`url`).  The full-stream concatenation consequence holds only for the
consumed prefix of the input — see the counterexample for an aborting
input. -/
theorem c2_roundtrip_amended : ∀ (s : Str) (i : Nat) (t : Tok) (j n : Nat),
    tokStep s i = .tok t j n →
    toStr t = jsSub s j n ∨
    (t = .str [' '] ∧ j < n ∧ (jsSub s j n).all isJsWs = true ∧ jsSub s j n ≠ []) ∨
    (∃ src u, t = .url src u) := by
  intro s i t j n h
  obtain ⟨-, hws, hdisj⟩ := dispatch1_tok s j t n (tokStep_tok h)
  rcases hdisj with h1 | h1 | h1
  · exact Or.inl h1
  · obtain ⟨hlt, hmem, -⟩ := hws h1
    obtain ⟨c, hcg, -⟩ := hmem j (Nat.le_refl j) hlt
    exact Or.inr (Or.inl ⟨h1, hlt,
      jsSub_all n s j n (Nat.sub_le n j) (Nat.le_of_lt hlt) hmem,
      jsSub_ne_nil hlt hcg⟩)
  · exact Or.inr (Or.inr h1)

/-- Witness for C2 at the concrete input `ab`. -/
theorem c2_witness :
    toStr (Tok.ident ['a','b'] ['a','b']) = jsSub ("ab".toList) 0 2 ∨
    (Tok.ident ['a','b'] ['a','b'] = .str [' '] ∧ 0 < 2 ∧
      (jsSub ("ab".toList) 0 2).all isJsWs = true ∧ jsSub ("ab".toList) 0 2 ≠ []) ∨
    (∃ src u, Tok.ident ['a','b'] ['a','b'] = .url src u) :=
  c2_roundtrip_amended ("ab".toList) 0 (Tok.ident ['a','b'] ['a','b']) 0 2 rfl

/-- C9, corrected: every Whitespace token the tokenizer emits covers a
maximal nonempty run of whitespace characters — the span `[j, n)` is
all-whitespace, nonempty, and the character at `n` (if any) is not
whitespace.  (Adjacent Whitespace tokens still occur across comments, and
aborted tokenization can leave runs untokenized; see the counterexample.) -/
theorem c9_ws_maximal_amended : ∀ (s : Str) (i j n : Nat),
    tokStep s i = .tok (.str [' ']) j n →
    j < n ∧ (∀ k, j ≤ k → k < n → ∃ c, s.get? k = some c ∧ isJsWs c = true) ∧
    (∀ c, s.get? n = some c → isJsWs c = false) := by
  intro s i j n h
  exact (dispatch1_tok s j (.str [' ']) n (tokStep_tok h)).2.1 rfl

/-- Witness for C9 at the concrete input `" a"`. -/
theorem c9_witness :
    0 < 1 ∧ (∀ k, 0 ≤ k → k < 1 → ∃ c, (" a".toList).get? k = some c ∧ isJsWs c = true) ∧
    (∀ c, (" a".toList).get? 1 = some c → isJsWs c = false) :=
  c9_ws_maximal_amended (" a".toList) 0 0 1 rfl

end CssJs

namespace CssJs

theorem goodStrChar_facts {c : Char} (h : goodStrChar c = true) :
    ¬ c = '\'' ∧ ¬ (c = '\n' ∨ c = '\r') ∧ ¬ c = '\x0c' ∧ ¬ c = '\\' := by
  unfold goodStrChar at h
  rw [Bool.not_eq_true'] at h
  simp only [Bool.or_eq_false_iff, decide_eq_false_iff_not] at h
  obtain ⟨⟨⟨hq, hb⟩, hf⟩, hlt⟩ := h
  unfold isLineTerm at hlt
  simp only [Bool.or_eq_false_iff, decide_eq_false_iff_not] at hlt
  refine ⟨hq, ?_, hf, hb⟩
  rintro (rfl | rfl)
  · exact hlt.1.1.1 rfl
  · exact hlt.1.1.2 rfl

theorem strLoop_plain : ∀ (n : Nat) (s : Str) (p fuel : Nat) (fb : Option Nat),
    (∀ k, p ≤ k → k < p + n → ∃ c, s.get? k = some c ∧ goodStrChar c = true) →
    s.get? (p + n) = some '\n' →
    n + 1 ≤ fuel →
    strLoopF s '\'' fuel p fb = some (p + n, false) := by
  intro n
  induction n with
  | zero =>
    intro s p fuel fb hgood hnl hfuel
    cases fuel with
    | zero => omega
    | succ fuel =>
      rw [Nat.add_zero] at hnl
      unfold strLoopF
      rw [hnl]
      dsimp only
      rw [if_neg (by decide), if_pos (by decide), Nat.add_zero]
  | succ n ih =>
    intro s p fuel fb hgood hnl hfuel
    cases fuel with
    | zero => omega
    | succ fuel =>
      obtain ⟨c, hc, hgc⟩ := hgood p (Nat.le_refl p) (by omega)
      obtain ⟨h1, h2, h3, h4⟩ := goodStrChar_facts hgc
      unfold strLoopF
      rw [hc]
      dsimp only
      rw [if_neg h1, if_neg h2, if_neg h3, if_neg h4]
      have hrec := ih s (p+1) fuel fb
        (fun k hk1 hk2 => hgood k (by omega) (by omega))
        (by rw [show p + 1 + n = p + (n + 1) by omega]; exact hnl)
        (by omega)
      rw [hrec]
      congr 2
      omega

/-- C3, corrected: a string whose content reaches an unescaped newline does
**not** produce `None` — the regexes' multiline `$` ends the match right
before the newline, so a `String` token is produced whose source is the
opening quote plus the content before the newline, and the tokenizer's
cursor is left at the newline.  (`None` arises only for a content that
cannot reach any terminator: an out-of-grammar escape, a trailing backslash,
or a form feed.) -/
theorem c3_newline_string_amended : ∀ (pre post : Str),
    pre.all goodStrChar = true →
    consumeAStringToken ('\'' :: (pre ++ '\n' :: post)) 0 =
      some (.string ('\'' :: pre) pre, 1 + pre.length) := by
  intro pre post hgood
  have hget0 : ('\'' :: (pre ++ '\n' :: post)).get? 0 = some '\'' := rfl
  have hgetk : ∀ k, 1 ≤ k → k < 1 + pre.length →
      ∃ c, ('\'' :: (pre ++ '\n' :: post)).get? k = some c ∧ goodStrChar c = true := by
    intro k hk1 hk2
    obtain ⟨k', rfl⟩ : ∃ k', k = k' + 1 := ⟨k - 1, by omega⟩
    have hk' : k' < pre.length := by omega
    have hc := List.get?_eq_get hk'
    refine ⟨pre.get ⟨k', hk'⟩, ?_, ?_⟩
    · show (pre ++ '\n' :: post).get? k' = _
      rw [List.get?_append hk']
      exact hc
    · exact List.all_eq_true.mp hgood _ (List.get_mem pre k' hk')
  have hnl : ('\'' :: (pre ++ '\n' :: post)).get? (1 + pre.length) = some '\n' := by
    rw [show 1 + pre.length = pre.length + 1 by omega]
    show (pre ++ '\n' :: post).get? pre.length = some '\n'
    rw [List.get?_append_right (Nat.le_refl _)]
    simp
  unfold consumeAStringToken strMatch
  rw [hget0]
  dsimp only
  rw [show (1 : Nat) + pre.length = 1 + pre.length from rfl] at hnl
  have hrun := strLoop_plain pre.length ('\'' :: (pre ++ '\n' :: post)) 1
    (('\'' :: (pre ++ '\n' :: post)).length + 2) none hgetk hnl
    (by simp only [List.length_cons, List.length_append]; omega)
  rw [hrun]
  dsimp only
  simp only [if_neg Bool.false_ne_true, Nat.zero_add]
  have hsub0 : jsSub ('\'' :: (pre ++ '\n' :: post)) 0 (1 + pre.length) = '\'' :: pre := by
    rw [jsSub_of_le (by omega)]
    simp only [Nat.sub_zero, List.drop_zero]
    rw [show ('\'' :: (pre ++ '\n' :: post)) = ('\'' :: pre) ++ ('\n' :: post) by simp,
        show 1 + pre.length = ('\'' :: pre).length by simp [Nat.add_comm]]
    exact List.take_left ('\'' :: pre) ('\n' :: post)
  have hsub1 : jsSub ('\'' :: (pre ++ '\n' :: post)) 1 (1 + pre.length) = pre := by
    rw [jsSub_of_le (by omega)]
    show (pre ++ '\n' :: post).take (1 + pre.length - 1) = pre
    rw [show 1 + pre.length - 1 = pre.length by omega]
    exact List.take_left pre ('\n' :: post)
  rw [hsub0, hsub1]
  rw [escape_plain pre (fun c hc hb => by
    obtain ⟨-, -, -, h4⟩ := goodStrChar_facts (List.all_eq_true.mp hgood _ hc)
    exact h4 hb)]

/-- Witness for C3 at the concrete input `'a<LF>b'`. -/
theorem c3_witness :
    consumeAStringToken ('\'' :: (['a'] ++ '\n' :: "b'".toList)) 0 =
      some (.string ('\'' :: ['a']) ['a'], 1 + ['a'].length) :=
  c3_newline_string_amended ['a'] ("b'".toList) (by decide)

end CssJs

namespace CssJs

theorem atLoop_pos : ∀ (fuel : Nat) (nm : Str) (prelude : List Tok) (st : PState)
    (r : AtRuleR) (st' : PState), atLoop fuel nm prelude st = (Except.ok r, st') →
    r.position = none := by
  intro fuel
  induction fuel with
  | zero => intro nm prelude st r st' h; exact absurd h (by simp [atLoop])
  | succ fuel ih =>
    intro nm prelude st r st' h
    unfold atLoop at h
    rcases hT : consumeATokenP st with ⟨rt, st1⟩
    rw [hT] at h
    cases rt with
    | error e => exact absurd h (by simp)
    | ok ot =>
      cases ot with
      | none =>
        simp only [Prod.mk.injEq, Except.ok.injEq] at h
        rw [← h.1]
      | some t =>
        dsimp only at h
        by_cases h1 : isStrTok t [';']
        · rw [if_pos h1] at h
          simp only [Prod.mk.injEq, Except.ok.injEq] at h
          rw [← h.1]
        · rw [if_neg h1] at h
          by_cases h2 : isStrTok t ['{']
          · rw [if_pos h2] at h
            rcases hB : consumeASimpleBlock fuel .brace st1 with ⟨rb, st2⟩
            rw [hB] at h
            cases rb with
            | error e => exact absurd h (by simp)
            | ok blk =>
              simp only [Prod.mk.injEq, Except.ok.injEq] at h
              rw [← h.1]
          · rw [if_neg h2] at h
            split at h
            · simp only [Prod.mk.injEq, Except.ok.injEq] at h
              rw [← h.1]
            · rcases hV : consumeAComponentValue fuel t st1 with ⟨rv, st2⟩
              rw [hV] at h
              cases rv with
              | error e => exact absurd h (by simp)
              | ok v => exact ih nm _ st2 r st' h

theorem consumeAnAtRule_pos {fuel : Nat} {nm : Str} {st : PState} {r : AtRuleR} {st' : PState}
    (h : consumeAnAtRule fuel nm st = (Except.ok r, st')) : r.position = none := by
  unfold consumeAnAtRule at h
  split at h
  · exact absurd h (by simp)
  · exact atLoop_pos _ nm [] st r st' h

theorem qrLoop_zero (prelude : List Tok) (cur : Tok) (st : PState) :
    qrLoop 0 prelude cur st = (Except.error fuelMsg, st) := rfl

theorem qrLoop_eq (fuel : Nat) (prelude : List Tok) (cur : Tok) (st : PState) :
    qrLoop (fuel+1) prelude cur st =
    (if isStrTok cur ['{'] then
      match consumeASimpleBlock fuel .brace st with
      | (Except.error e, st2) => (Except.error e, st2)
      | (Except.ok blk, st2) => (Except.ok (some (.qualified prelude blk none)), st2)
    else
      match cur with
      | .simpleBlock .brace _ => (Except.ok (some (.qualified prelude cur none)), st)
      | _ =>
        match consumeAComponentValue fuel cur st with
        | (Except.error e, st2) => (Except.error e, st2)
        | (Except.ok v, st2) =>
          match consumeATokenP st2 with
          | (Except.error e, st3) => (Except.error e, st3)
          | (Except.ok none, st3) => (Except.ok none, st3)
          | (Except.ok (some t), st3) => qrLoop fuel (prelude ++ [v]) t st3) := rfl

theorem qrLoop_pos : ∀ (fuel : Nat) (prelude : List Tok) (cur : Tok) (st : PState)
    (ru : RuleR) (st' : PState), qrLoop fuel prelude cur st = (Except.ok (some ru), st') →
    rulePos ru = none := by
  intro fuel
  induction fuel with
  | zero =>
    intro prelude cur st ru st' h
    rw [qrLoop_zero] at h
    exact absurd h (by simp)
  | succ fuel ih =>
    intro prelude cur st ru st' h
    rw [qrLoop_eq] at h
    by_cases h1 : isStrTok cur ['{']
    · rw [if_pos h1] at h
      rcases hB : consumeASimpleBlock fuel .brace st with ⟨rb, st2⟩
      rw [hB] at h
      cases rb with
      | error e => exact absurd h (by simp)
      | ok blk =>
        simp only [Prod.mk.injEq, Except.ok.injEq, Option.some.injEq] at h
        rw [← h.1]
        rfl
    · rw [if_neg h1] at h
      split at h
      · simp only [Prod.mk.injEq, Except.ok.injEq, Option.some.injEq] at h
        rw [← h.1]
        rfl
      · rcases hV : consumeAComponentValue fuel cur st with ⟨rv, st2⟩
        rw [hV] at h
        cases rv with
        | error e => exact absurd h (by simp)
        | ok v =>
          dsimp only at h
          rcases hT : consumeATokenP st2 with ⟨rt, st3⟩
          rw [hT] at h
          cases rt with
          | error e => exact absurd h (by simp)
          | ok ot =>
            cases ot with
            | none => exact absurd h (by simp)
            | some t => exact ih _ t st3 ru st' h

theorem consumeAQualifiedRule_pos {fuel : Nat} {seed : Tok} {st : PState} {ru : RuleR}
    {st' : PState} (h : consumeAQualifiedRule fuel seed st = (Except.ok (some ru), st')) :
    rulePos ru = none := by
  unfold consumeAQualifiedRule at h
  split at h
  · exact absurd h (by simp)
  · exact qrLoop_pos _ [] seed st ru st' h

theorem lorLoop_pos : ∀ (fuel : Nat) (acc : List RuleR) (st : PState) (rules : List RuleR)
    (st' : PState), lorLoop fuel acc st = (Except.ok rules, st') →
    (∀ x ∈ acc, rulePos x = none) → ∀ x ∈ rules, rulePos x = none := by
  intro fuel
  induction fuel with
  | zero => intro acc st rules st' h; exact absurd h (by simp [lorLoop])
  | succ fuel ih =>
    intro acc st rules st' h hacc
    unfold lorLoop at h
    rcases hT : consumeATokenP st with ⟨rt, st1⟩
    rw [hT] at h
    cases rt with
    | error e => exact absurd h (by simp)
    | ok ot =>
      cases ot with
      | none =>
        simp only [Prod.mk.injEq, Except.ok.injEq] at h
        rw [← h.1]
        exact hacc
      | some t =>
        dsimp only at h
        by_cases h1 : isStrTok t [' ']
        · rw [if_pos h1] at h
          exact ih acc st1 rules st' h hacc
        · rw [if_neg h1] at h
          by_cases h2 : isStrTok t ("<!--".toList) ∨ isStrTok t ("-->".toList)
          · rw [if_pos h2] at h
            by_cases h3 : st1.topLevel
            · rw [if_pos h3] at h
              exact ih acc st1 rules st' h hacc
            · rw [if_neg h3] at h
              rcases hQ : consumeAQualifiedRule fuel t st1 with ⟨rq, st2⟩
              rw [hQ] at h
              cases rq with
              | error e => exact absurd h (by simp)
              | ok oq =>
                cases oq with
                | some ru =>
                  refine ih _ st2 rules st' h ?_
                  intro x hx
                  rcases List.mem_append.mp hx with hx | hx
                  · exact hacc x hx
                  · rw [List.mem_singleton.mp hx]
                    exact consumeAQualifiedRule_pos hQ
                | none => exact ih acc st2 rules st' h hacc
          · rw [if_neg h2] at h
            split at h
            · rename_i src0 nm
              rcases hA : consumeAnAtRule fuel nm st1 with ⟨ra, st2⟩
              rw [hA] at h
              cases ra with
              | error e => exact absurd h (by simp)
              | ok ar =>
                refine ih _ st2 rules st' h ?_
                intro x hx
                rcases List.mem_append.mp hx with hx | hx
                · exact hacc x hx
                · rw [List.mem_singleton.mp hx]
                  exact consumeAnAtRule_pos hA
            · rcases hQ : consumeAQualifiedRule fuel t st1 with ⟨rq, st2⟩
              rw [hQ] at h
              cases rq with
              | error e => exact absurd h (by simp)
              | ok oq =>
                cases oq with
                | some ru =>
                  refine ih _ st2 rules st' h ?_
                  intro x hx
                  rcases List.mem_append.mp hx with hx | hx
                  · exact hacc x hx
                  · rw [List.mem_singleton.mp hx]
                    exact consumeAQualifiedRule_pos hQ
                | none => exact ih acc st2 rules st' h hacc

end CssJs

namespace CssJs

theorem withTokens_ok {α : Type} {toks : List Tok} {act : PState → Res α × PState}
    {st : PState} {x : α} {st' : PState} (h : withTokens toks act st = (Except.ok x, st')) :
    ∃ st1 st2, act st1 = (Except.ok x, st2) := by
  unfold withTokens at h
  dsimp only at h
  rcases hA : act { st with source := .arr toks 0, posDisabled := true } with ⟨r, st2⟩
  rw [hA] at h
  simp only [Prod.mk.injEq] at h
  exact ⟨_, st2, by rw [hA, h.1]⟩

theorem consumeAListOfRules_pos {fuel : Nat} {st : PState} {rules : List RuleR} {st' : PState}
    (h : consumeAListOfRules fuel st = (Except.ok rules, st')) :
    ∀ x ∈ rules, rulePos x = none := by
  unfold consumeAListOfRules at h
  split at h
  · exact absurd h (by simp)
  · exact lorLoop_pos _ [] st rules st' h (by intro x hx; exact absurd hx (List.not_mem_nil x))

theorem consumeADeclaration_pos {fuel : Nat} {st : PState} {d : DeclR} {st' : PState}
    (h : consumeADeclaration fuel st = (Except.ok (some d), st')) : d.position = none := by
  unfold consumeADeclaration at h
  rcases hT : consumeATokenP st with ⟨rt, st1⟩
  rw [hT] at h
  cases rt with
  | error e => exact absurd h (by simp)
  | ok ot =>
    cases ot with
    | none => exact absurd h (by simp)
    | some first =>
      dsimp only at h
      split at h
      · rcases hS : declSkipWs fuel st1 with ⟨rs, st2⟩
        rw [hS] at h
        cases rs with
        | error e => exact absurd h (by simp)
        | ok tok? =>
          dsimp only at h
          split at h
          · rcases hC : declCollect fuel [] st2 with ⟨rc, st3⟩
            rw [hC] at h
            cases rc with
            | error e => exact absurd h (by simp)
            | ok vals =>
              dsimp only at h
              simp only [Prod.mk.injEq, Except.ok.injEq, Option.some.injEq] at h
              rw [← h.1]
          · exact absurd h (by simp)
      · exact absurd h (by simp)

theorem lodLoop_pos : ∀ (fuel : Nat) (acc : List DeclOrAt) (st : PState)
    (ds : List DeclOrAt) (st' : PState), lodLoop fuel acc st = (Except.ok ds, st') →
    (∀ x ∈ acc, declOrAtPos x = none) → ∀ x ∈ ds, declOrAtPos x = none := by
  intro fuel
  induction fuel with
  | zero => intro acc st ds st' h; exact absurd h (by simp [lodLoop])
  | succ fuel ih =>
    intro acc st ds st' h hacc
    unfold lodLoop at h
    rcases hT : consumeATokenP st with ⟨rt, st1⟩
    rw [hT] at h
    cases rt with
    | error e => exact absurd h (by simp)
    | ok ot =>
      cases ot with
      | none =>
        simp only [Prod.mk.injEq, Except.ok.injEq] at h
        rw [← h.1]
        exact hacc
      | some t =>
        dsimp only at h
        by_cases h1 : isStrTok t [' '] ∨ isStrTok t [';']
        · rw [if_pos h1] at h
          exact ih acc st1 ds st' h hacc
        · rw [if_neg h1] at h
          split at h
          · rename_i src0 nm
            rcases hA : consumeAnAtRule fuel nm st1 with ⟨ra, st2⟩
            rw [hA] at h
            cases ra with
            | error e => exact absurd h (by simp)
            | ok ar =>
              refine ih _ st2 ds st' h ?_
              intro x hx
              rcases List.mem_append.mp hx with hx | hx
              · exact hacc x hx
              · rw [List.mem_singleton.mp hx]
                exact consumeAnAtRule_pos hA
          · rename_i src0 nm0
            rcases hC : collectDecl fuel [Tok.ident src0 nm0] st1 with ⟨rc, st2⟩
            rw [hC] at h
            cases rc with
            | error e => exact absurd h (by simp)
            | ok list =>
              dsimp only at h
              rcases hW : withTokens list (consumeADeclaration fuel) st2 with ⟨rw?, st3⟩
              rw [hW] at h
              cases rw? with
              | error e => exact absurd h (by simp)
              | ok od =>
                cases od with
                | some dd =>
                  refine ih _ st3 ds st' h ?_
                  intro x hx
                  rcases List.mem_append.mp hx with hx | hx
                  · exact hacc x hx
                  · rw [List.mem_singleton.mp hx]
                    obtain ⟨s1, s2, hact⟩ := withTokens_ok hW
                    exact consumeADeclaration_pos hact
                | none => exact ih acc st3 ds st' h hacc
          · rcases hR : recoverLoop fuel t st1 with ⟨rr, st2⟩
            rw [hR] at h
            cases rr with
            | error e => exact absurd h (by simp)
            | ok u => exact ih acc st2 ds st' h hacc

theorem consumeAListOfDeclarations_pos {fuel : Nat} {st : PState} {ds : List DeclOrAt}
    {st' : PState} (h : consumeAListOfDeclarations fuel st = (Except.ok ds, st')) :
    ∀ x ∈ ds, declOrAtPos x = none := by
  unfold consumeAListOfDeclarations at h
  exact lodLoop_pos _ [] st ds st' h (by intro x hx; exact absurd hx (List.not_mem_nil x))

theorem kfLoop_pos : ∀ (fuel : Nat) (rules : List RuleR) (acc : List KeyframeR) (st : PState)
    (frames : List KeyframeR) (st' : PState), kfLoop fuel rules acc st = (Except.ok frames, st') →
    (∀ f ∈ acc, ∀ d ∈ f.declarations, d.position = none) →
    ∀ f ∈ frames, ∀ d ∈ f.declarations, d.position = none := by
  intro fuel rules
  induction rules with
  | nil =>
    intro acc st frames st' h hacc
    unfold kfLoop at h
    simp only [Prod.mk.injEq, Except.ok.injEq] at h
    rw [← h.1]
    exact hacc
  | cons r rest ih =>
    intro acc st frames st' h hacc
    unfold kfLoop at h
    rcases r with ⟨prelude, block, pos⟩ | ⟨a⟩
    · dsimp only at h
      rcases hW : withTokens (blockValues block) (consumeAListOfDeclarations fuel) st with ⟨rw?, st1⟩
      rw [hW] at h
      cases rw? with
      | error e => exact absurd h (by simp)
      | ok dsl =>
        refine ih _ st1 frames st' h ?_
        intro f hf d hd
        rcases List.mem_append.mp hf with hf | hf
        · exact hacc f hf d hd
        · rw [List.mem_singleton.mp hf] at hd
          dsimp only at hd
          obtain ⟨y, hy, hyd⟩ := List.mem_filterMap.mp hd
          obtain ⟨s1, s2, hact⟩ := withTokens_ok hW
          have hyd' := consumeAListOfDeclarations_pos hact y (List.mem_of_mem_filter hy)
          rcases y with ⟨d0⟩ | ⟨a0⟩
          · simp only [Option.some.injEq] at hyd
            rw [← hyd]
            exact hyd'
          · exact absurd hyd (by simp)
    · exact ih acc st frames st' h hacc

theorem keyframesParserF_pos {fuel : Nat} {a : AtRuleR} {st : PState} {kr : CSSRule}
    {st' : PState} (h : keyframesParserF fuel a st = (Except.ok kr, st')) : CssNoPos kr := by
  unfold keyframesParserF at h
  dsimp only at h
  rcases hB : a.block with _ | blk
  · rw [hB] at h
    exact absurd h (by simp)
  · rw [hB] at h
    dsimp only at h
    rcases hW : withTokens (blockValues blk) (consumeAListOfRules fuel) st with ⟨rw?, st1⟩
    rw [hW] at h
    cases rw? with
    | error e => exact absurd h (by simp)
    | ok rules =>
      dsimp only at h
      rcases hK : kfLoop fuel rules [] st1 with ⟨rk, st2⟩
      rw [hK] at h
      cases rk with
      | error e => exact absurd h (by simp)
      | ok frames =>
        simp only [Prod.mk.injEq, Except.ok.injEq] at h
        rw [← h.1]
        exact kfLoop_pos fuel rules [] st1 frames st2 hK
          (by intro f hf; exact absurd hf (List.not_mem_nil f))

theorem interpretAsStyleRule_pos {fuel : Nat} {prelude : List Tok} {block : Tok}
    {pos : Option Span} {st : PState} {sr : StyleRuleR} {st' : PState}
    (h : interpretAsStyleRule fuel prelude block pos st = (Except.ok sr, st'))
    (hp : pos = none) : CssNoPos (.style sr) := by
  unfold interpretAsStyleRule at h
  dsimp only at h
  rcases hW : withTokens (blockValues block) (consumeAListOfDeclarations fuel) st with ⟨rw?, st1⟩
  rw [hW] at h
  cases rw? with
  | error e => exact absurd h (by simp)
  | ok dsl =>
    simp only [Prod.mk.injEq, Except.ok.injEq] at h
    rw [← h.1]
    obtain ⟨s1, s2, hact⟩ := withTokens_ok hW
    exact ⟨hp, consumeAListOfDeclarations_pos hact⟩

theorem cssLoop_pos : ∀ (fuel : Nat) (reg : List Handler) (rules : List RuleR)
    (acc : List CSSRule) (st : PState) (out : List CSSRule) (st' : PState),
    cssLoop fuel reg rules acc st = (Except.ok out, st') →
    (∀ r ∈ rules, rulePos r = none) → (∀ c ∈ acc, CssNoPos c) → ∀ c ∈ out, CssNoPos c := by
  intro fuel reg rules
  induction rules with
  | nil =>
    intro acc st out st' h hr hacc
    unfold cssLoop at h
    simp only [Prod.mk.injEq, Except.ok.injEq] at h
    rw [← h.1]
    exact hacc
  | cons r rest ih =>
    intro acc st out st' h hr hacc
    unfold cssLoop at h
    rcases r with ⟨prelude, block, pos⟩ | ⟨a⟩
    · dsimp only at h
      rcases hI : interpretAsStyleRule fuel prelude block pos st with ⟨ri, st1⟩
      rw [hI] at h
      cases ri with
      | error e => exact absurd h (by simp)
      | ok sr =>
        refine ih _ st1 out st' h (fun x hx => hr x (List.mem_cons_of_mem _ hx)) ?_
        intro c hc
        rcases List.mem_append.mp hc with hc | hc
        · exact hacc c hc
        · rw [List.mem_singleton.mp hc]
          exact interpretAsStyleRule_pos hI (hr _ (List.mem_cons_self _ _))
    · dsimp only at h
      rcases hL : regLookup reg a.name with _ | hnd
      · rw [hL] at h
        exact ih acc st out st' h (fun x hx => hr x (List.mem_cons_of_mem _ hx)) hacc
      · rw [hL] at h
        cases hnd with
        | importH =>
          dsimp only at h
          refine ih _ st out st' h (fun x hx => hr x (List.mem_cons_of_mem _ hx)) ?_
          intro c hc
          rcases List.mem_append.mp hc with hc | hc
          · exact hacc c hc
          · rw [List.mem_singleton.mp hc]
            exact hr _ (List.mem_cons_self _ _)
        | keyframesH =>
          dsimp only at h
          rcases hK : keyframesParserF fuel a st with ⟨rk, st1⟩
          rw [hK] at h
          cases rk with
          | error e => exact absurd h (by simp)
          | ok kr =>
            refine ih _ st1 out st' h (fun x hx => hr x (List.mem_cons_of_mem _ hx)) ?_
            intro c hc
            rcases List.mem_append.mp hc with hc | hc
            · exact hacc c hc
            · rw [List.mem_singleton.mp hc]
              exact keyframesParserF_pos hK

theorem parseAStylesheet_pos {text : Str} {sheet : StylesheetR} {st' : PState}
    (h : parseAStylesheet text = (Except.ok sheet, st')) : ∀ r ∈ sheet.rules, rulePos r = none := by
  unfold parseAStylesheet at h
  rcases hC : consumeAListOfRules (pFuel text) (resetSt text) with ⟨rc, st1⟩
  rw [hC] at h
  cases rc with
  | error e => exact absurd h (by simp)
  | ok rules =>
    simp only [Prod.mk.injEq, Except.ok.injEq] at h
    rw [← h.1]
    exact consumeAListOfRules_pos hC

end CssJs

namespace CssJs

/-- C4 (amended): the authoritative draft has no `debug` option and never
attaches positions — every rule a successful `parseAStylesheet` returns
carries `position = none`, and every rule a successful `parseACSSStylesheet`
returns carries no position anywhere (not on the rule, not on any
declaration inside it). -/
theorem c4_no_positions_amended :
    (∀ (text : Str) (sheet : StylesheetR),
        (parseAStylesheet text).1 = Except.ok sheet →
        ∀ r ∈ sheet.rules, rulePos r = none) ∧
    (∀ (reg : List Handler) (text : Str) (cs : CSSStylesheetR),
        (parseACSSStylesheet reg text).1 = Except.ok cs →
        ∀ c ∈ cs.rules, CssNoPos c) := by
  constructor
  · intro text sheet h
    rcases hP : parseAStylesheet text with ⟨r1, st1⟩
    rw [hP] at h
    dsimp only at h
    rw [h] at hP
    exact parseAStylesheet_pos hP
  · intro reg text cs h
    unfold parseACSSStylesheet at h
    rcases hP : parseAStylesheet text with ⟨r1, st1⟩
    rw [hP] at h
    cases r1 with
    | error e => exact absurd h (by simp)
    | ok sheet =>
      dsimp only at h
      rcases hC : cssLoop (pFuel text) reg sheet.rules [] st1 with ⟨rc, st2⟩
      rw [hC] at h
      cases rc with
      | error e => exact absurd h (by simp)
      | ok rules =>
        dsimp only at h
        simp only [Except.ok.injEq] at h
        rw [← h]
        exact cssLoop_pos _ reg sheet.rules [] st1 rules st2 hC
          (parseAStylesheet_pos hP) (by intro c hc; exact absurd hc (List.not_mem_nil c))

/-- Witness for C4: at input `a{}` the parser succeeds with one qualified
rule, whose position is `none`. -/
theorem c4_witness :
    rulePos (RuleR.qualified [Tok.ident ['a'] ['a']] (Tok.simpleBlock .brace []) none)
      = none :=
  c4_no_positions_amended.1 ("a{}".toList)
    { rules := [RuleR.qualified [Tok.ident ['a'] ['a']] (Tok.simpleBlock .brace []) none],
      parsingErrors := [] }
    rfl _ (List.mem_singleton.mpr rfl)

end CssJs

namespace CssJs

theorem tok_get?_lt {l : List Tok} {n : Nat} {t : Tok} (h : l.get? n = some t) : n < l.length := by
  obtain ⟨hlt, -⟩ := List.get?_eq_some.mp h
  exact hlt

theorem tok_drop_cons {l : List Tok} {n : Nat} {t : Tok} (h : l.get? n = some t) :
    l.drop n = t :: l.drop (n+1) := by
  obtain ⟨hlt, hg⟩ := List.get?_eq_some.mp h
  rw [List.drop_eq_getElem_cons hlt]
  simp only [List.get_eq_getElem] at hg
  rw [hg]

theorem splitAux_zero (arr : List Tok) (sep : Str) (start en : Nat) :
    splitAux arr sep 0 start en = [] := rfl

theorem splitAux_succ (arr : List Tok) (sep : Str) (fuel start en : Nat) :
    splitAux arr sep (fuel+1) start en =
    (if en ≤ arr.length then
      if ((arr.get? en).elim false (fun t => isStrTok t sep)) || (en == arr.length) then
        if start ≠ en then
          ((arr.drop start).take (en - start)) :: splitAux arr sep fuel (en + 1) (en + 1)
        else splitAux arr sep fuel start (en + 1)
      else splitAux arr sep fuel start (en + 1)
    else []) := rfl

theorem splitAux_overflow (arr : List Tok) (sep : Str) (fuel start en : Nat)
    (h : arr.length < en) : splitAux arr sep fuel start en = [] := by
  cases fuel with
  | zero => rfl
  | succ fuel => rw [splitAux_succ, if_neg (by omega)]

theorem countGroupsAux_cons (t : Tok) (rest : List Tok) (b : Bool) :
    countGroupsAux (t :: rest) b =
    (if isComma t then countGroupsAux rest false
     else (if b then 0 else 1) + countGroupsAux rest true) := rfl

theorem noDoubleComma_adj : ∀ (l : List Tok), noDoubleComma l = true →
    ∀ (i : Nat) (a b : Tok), l.get? i = some a → l.get? (i+1) = some b →
    isComma a = false ∨ isComma b = false := by
  intro l
  induction l with
  | nil => intro _ i a b ha _; exact absurd ha (by simp)
  | cons t ts ih =>
    intro hndc i a b ha hb
    cases ts with
    | nil =>
      cases i with
      | zero => exact absurd hb (by simp)
      | succ j => exact absurd ha (by simp)
    | cons u us =>
      have hstep : noDoubleComma (t :: u :: us) =
          (!(isComma t && isComma u) && noDoubleComma (u :: us)) := rfl
      rw [hstep, Bool.and_eq_true] at hndc
      cases i with
      | zero =>
        rw [List.get?_cons_zero] at ha
        rw [List.get?_cons_succ, List.get?_cons_zero] at hb
        injection ha with ha
        injection hb with hb
        rw [← ha, ← hb]
        have h1 := hndc.1
        cases hct : isComma t with
        | false => exact Or.inl rfl
        | true =>
          cases hcu : isComma u with
          | false => exact Or.inr rfl
          | true => rw [hct, hcu] at h1; exact absurd h1 (by simp)
      | succ j =>
        rw [List.get?_cons_succ] at ha hb
        exact ih hndc.2 j a b ha hb

theorem noEmptyGroups_head : ∀ (l : List Tok), noEmptyGroups l = true →
    ∀ (t : Tok), l.get? 0 = some t → isComma t = false := by
  intro l hne t h0
  cases l with
  | nil => exact absurd h0 (by simp)
  | cons u us =>
    rw [List.get?_cons_zero] at h0
    injection h0 with h0
    unfold noEmptyGroups at hne
    rw [Bool.and_eq_true] at hne
    have h1 := hne.1
    dsimp only at h1
    rw [← h0]
    rw [Bool.not_eq_true'] at h1
    exact h1

theorem noEmptyGroups_ndc {l : List Tok} (h : noEmptyGroups l = true) :
    noDoubleComma l = true := by
  unfold noEmptyGroups at h
  rw [Bool.and_eq_true] at h
  exact h.2

theorem splitAux_count (arr : List Tok) (hne : noEmptyGroups arr = true) :
    ∀ (fuel start en : Nat), fuel + en = arr.length + 2 → start ≤ en → en ≤ arr.length →
    (start = en → en = 0 ∨ ∃ c, arr.get? (en - 1) = some c ∧ isComma c = true) →
    (splitAux arr [','] fuel start en).length =
      (if start < en then 1 + countGroupsAux (arr.drop en) true
       else countGroupsAux (arr.drop en) false) := by
  intro fuel
  induction fuel with
  | zero =>
    intro start en hf _ hel _
    exfalso
    omega
  | succ fuel ih =>
    intro start en hf hse hel hreset
    rw [splitAux_succ, if_pos hel]
    rcases Nat.lt_or_ge en arr.length with hlt | hge
    · -- `en` points at a real token
      rcases hgo : arr.get? en with _ | t
      · exact absurd (List.get?_eq_none.mp hgo) (by omega)
      · dsimp only [Option.elim]
        have hbeq : (en == arr.length) = false := by
          simp only [beq_eq_false_iff_ne, ne_eq]
          omega
        rw [hbeq, Bool.or_false]
        cases hc : isStrTok t [','] with
        | true =>
          -- a separator closes the pending group, which is nonempty
          have hcomma : isComma t = true := hc
          have hsne : start ≠ en := by
            intro hs
            rcases hreset hs with h0 | ⟨c, hcp, hcc⟩
            · rw [h0] at hgo
              rw [noEmptyGroups_head arr hne t hgo] at hcomma
              exact Bool.false_ne_true hcomma
            · have hen : en - 1 + 1 = en := by
                rcases Nat.eq_zero_or_pos en with h0 | hpos
                · rw [h0] at hgo
                  rw [noEmptyGroups_head arr hne t hgo] at hcomma
                  exact absurd hcomma Bool.false_ne_true
                · omega
              rcases noDoubleComma_adj arr (noEmptyGroups_ndc hne) (en - 1) c t hcp
                  (by rw [hen]; exact hgo) with hx | hx
              · rw [hx] at hcc; exact Bool.false_ne_true hcc
              · rw [hx] at hcomma; exact Bool.false_ne_true hcomma
          rw [if_pos rfl, if_pos hsne, List.length_cons]
          have hrec := ih (en + 1) (en + 1) (by omega) (le_refl _) (by omega)
            (fun _ => Or.inr ⟨t, by simpa using hgo, hcomma⟩)
          rw [hrec, if_neg (Nat.lt_irrefl _)]
          have hlt' : start < en := Nat.lt_of_le_of_ne hse hsne
          rw [if_pos hlt', tok_drop_cons hgo, countGroupsAux_cons, if_pos hcomma]
          omega
        | false =>
          rw [if_neg Bool.false_ne_true]
          have hrec := ih start (en + 1) (by omega) (by omega) (by omega)
            (by intro hs; exfalso; omega)
          rw [hrec, if_pos (by omega : start < en + 1)]
          rw [tok_drop_cons hgo]
          have hcomma : isComma t = false := hc
          by_cases h2 : start < en
          · rw [if_pos h2, countGroupsAux_cons,
              if_neg (by rw [hcomma]; exact Bool.false_ne_true), if_pos rfl]
            omega
          · rw [if_neg h2, countGroupsAux_cons,
              if_neg (by rw [hcomma]; exact Bool.false_ne_true),
              if_neg (by exact Bool.false_ne_true)]
    · -- `en` is one past the last token: final flush
      have hen : en = arr.length := by omega
      have hgo : arr.get? en = none := by
        rw [List.get?_eq_none]
        omega
      rw [hgo]
      dsimp only [Option.elim]
      have hbeq : (en == arr.length) = true := by simp [hen]
      rw [hbeq, Bool.false_or, if_pos rfl]
      have hdrop : arr.drop en = [] := by rw [hen]; exact List.drop_length arr
      by_cases hs : start = en
      · rw [if_neg (by intro hcontra; exact hcontra hs)]
        rw [splitAux_overflow arr [','] fuel start (en + 1) (by omega), List.length_nil]
        rw [if_neg (by omega), hdrop]
        rfl
      · rw [if_pos hs]
        rw [splitAux_overflow arr [','] fuel (en + 1) (en + 1) (by omega)]
        rw [List.length_cons, List.length_nil]
        rw [if_pos (Nat.lt_of_le_of_ne hse hs), hdrop]
        rfl

theorem split_count {l : List Tok} (h : noEmptyGroups l = true) :
    (split l [',']).length = countGroups l := by
  unfold split countGroups
  rw [splitAux_count l h (l.length + 2) 0 0 (by omega) (le_refl 0) (Nat.zero_le _)
    (fun _ => Or.inl rfl)]
  rw [if_neg (Nat.lt_irrefl 0), List.drop_zero]

theorem kfLoop_values : ∀ (fuel : Nat) (rules : List RuleR) (acc : List KeyframeR)
    (st : PState) (frames : List KeyframeR) (st' : PState),
    kfLoop fuel rules acc st = (Except.ok frames, st') →
    frames.map KeyframeR.values =
      acc.map KeyframeR.values ++ (rules.filter isQualifiedRule).map
        (fun r => (split (rulePrelude r) [',']).map arrayToString) := by
  intro fuel rules
  induction rules with
  | nil =>
    intro acc st frames st' h
    unfold kfLoop at h
    simp only [Prod.mk.injEq, Except.ok.injEq] at h
    rw [← h.1]
    simp [List.filter]
  | cons r rest ih =>
    intro acc st frames st' h
    unfold kfLoop at h
    rcases r with ⟨prelude, block, pos⟩ | ⟨a⟩
    · dsimp only at h
      rcases hW : withTokens (blockValues block) (consumeAListOfDeclarations fuel) st
        with ⟨rw?, st1⟩
      rw [hW] at h
      cases rw? with
      | error e => exact absurd h (by simp)
      | ok dsl =>
        rw [ih _ st1 frames st' h]
        rw [show (RuleR.qualified prelude block pos :: rest).filter isQualifiedRule =
          RuleR.qualified prelude block pos :: rest.filter isQualifiedRule from rfl]
        simp only [List.map_append, List.map_cons]
        rw [List.append_assoc]
        rfl
    · rw [ih _ st frames st' h]
      rw [show (RuleR.at a :: rest).filter isQualifiedRule = rest.filter isQualifiedRule from rfl]

end CssJs

namespace CssJs

/-- C5 (amended): a successful `keyframesParser` run returns a keyframes
rule whose entries correspond one-to-one to the *qualified* inner rules of
the block (one entry per qualified rule, in order, each with
`values = split(prelude, ",").map(arrayToString)`); and whenever a prelude
has no leading comma and no two adjacent commas, the number of entries
`split` produces equals the number of nonempty comma-separated groups.  For
degenerate preludes the counts can diverge, because `split` does not advance
`start` past a separator that closes an empty group. -/
theorem c5_keyframes_amended :
    (∀ (fuel : Nat) (a : AtRuleR) (blk : Tok) (st : PState) (rules : List RuleR)
        (kr : CSSRule),
        a.block = some blk →
        (withTokens (blockValues blk) (consumeAListOfRules fuel) st).1 = Except.ok rules →
        (keyframesParserF fuel a st).1 = Except.ok kr →
        ∃ frames, kr = CSSRule.keyframes (jsTrim (toStrL a.prelude)) frames ∧
          frames.map KeyframeR.values =
            (rules.filter isQualifiedRule).map
              (fun r => (split (rulePrelude r) [',']).map arrayToString)) ∧
    (∀ l : List Tok, noEmptyGroups l = true → (split l [',']).length = countGroups l) := by
  constructor
  · intro fuel a blk st rules kr hblk hw hk
    unfold keyframesParserF at hk
    dsimp only at hk
    rw [hblk] at hk
    dsimp only at hk
    rcases hW : withTokens (blockValues blk) (consumeAListOfRules fuel) st with ⟨rw?, st1⟩
    rw [hW] at hk hw
    dsimp only at hw
    subst hw
    dsimp only at hk
    rcases hK : kfLoop fuel rules [] st1 with ⟨rk, st2⟩
    rw [hK] at hk
    cases rk with
    | error e => exact absurd hk (by simp)
    | ok frames =>
      dsimp only at hk
      simp only [Except.ok.injEq] at hk
      refine ⟨frames, hk.symm, ?_⟩
      have hv := kfLoop_values fuel rules [] st1 frames st2 hK
      simpa using hv
  · intro l hl
    exact split_count hl

/-- Witness for C5: a `@keyframes n{0%{}}`-shaped at-rule yields one
keyframe with values `["0%"]`, and on the prelude `0%` the split count
equals the group count (both 1). -/
theorem c5_witness :
    (∃ frames,
        CSSRule.keyframes ['n'] [{ values := [['0','%']], declarations := [] }] =
          CSSRule.keyframes ['n'] frames ∧
        frames.map KeyframeR.values = [[['0','%']]]) ∧
    (split [Tok.percentage ['0','%']] [',']).length = countGroups [Tok.percentage ['0','%']] :=
  ⟨c5_keyframes_amended.1 32
      { name := "keyframes".toList, prelude := [Tok.ident ['n'] ['n']],
        block := some (Tok.simpleBlock .brace
          [Tok.percentage ['0','%'], Tok.simpleBlock .brace []]), position := none }
      (Tok.simpleBlock .brace [Tok.percentage ['0','%'], Tok.simpleBlock .brace []])
      (resetSt [])
      [RuleR.qualified [Tok.percentage ['0','%']] (Tok.simpleBlock .brace []) none]
      (CSSRule.keyframes ['n'] [{ values := [['0','%']], declarations := [] }])
      rfl rfl rfl,
    c5_keyframes_amended.2 [Tok.percentage ['0','%']] rfl⟩

end CssJs

namespace CssJs

theorem consumeAComponentValue_zero (t : Tok) (st : PState) :
    consumeAComponentValue 0 t st = (Except.error fuelMsg, st) := rfl

theorem consumeAComponentValue_eq (fuel : Nat) (t : Tok) (st : PState) :
    consumeAComponentValue (fuel+1) t st =
    (match t with
     | .str cs =>
       if cs = ['{'] then consumeASimpleBlock fuel .brace st
       else if cs = ['['] then consumeASimpleBlock fuel .brack st
       else if cs = ['('] then consumeASimpleBlock fuel .paren st
       else (Except.ok t, st)
     | .functionToken _ name => consumeAFunction fuel name st
     | _ => (Except.ok t, st)) := rfl

theorem consumeASimpleBlock_zero (a : Assoc) (st : PState) :
    consumeASimpleBlock 0 a st = (Except.error fuelMsg, st) := rfl

theorem consumeASimpleBlock_eq (fuel : Nat) (a : Assoc) (st : PState) :
    consumeASimpleBlock (fuel+1) a st = sbLoop fuel a [] st := rfl

theorem sbLoop_zero (a : Assoc) (acc : List Tok) (st : PState) :
    sbLoop 0 a acc st = (Except.error fuelMsg, st) := rfl

theorem sbLoop_eq (fuel : Nat) (a : Assoc) (acc : List Tok) (st : PState) :
    sbLoop (fuel+1) a acc st =
    (match consumeATokenP st with
     | (Except.error e, st') => (Except.error e, st')
     | (Except.ok none, st') => (Except.ok (.simpleBlock a acc), st')
     | (Except.ok (some t), st') =>
       if isStrTok t [closeChar a] then (Except.ok (.simpleBlock a acc), st')
       else
         match consumeAComponentValue fuel t st' with
         | (Except.error e, st2) => (Except.error e, st2)
         | (Except.ok v, st2) => sbLoop fuel a (acc ++ [v]) st2) := rfl

theorem consumeAFunction_zero (name : Str) (st : PState) :
    consumeAFunction 0 name st = (Except.error fuelMsg, st) := rfl

theorem consumeAFunction_eq (fuel : Nat) (name : Str) (st : PState) :
    consumeAFunction (fuel+1) name st = fnLoop fuel name [] st := rfl

theorem fnLoop_zero (name : Str) (acc : List Tok) (st : PState) :
    fnLoop 0 name acc st = (Except.error fuelMsg, st) := rfl

theorem fnLoop_eq (fuel : Nat) (name : Str) (acc : List Tok) (st : PState) :
    fnLoop (fuel+1) name acc st =
    (match consumeATokenP st with
     | (Except.error e, st') => (Except.error e, st')
     | (Except.ok none, st') => (Except.ok (.functionObject name acc), st')
     | (Except.ok (some t), st') =>
       if isStrTok t [')'] then (Except.ok (.functionObject name acc), st')
       else
         match consumeAComponentValue fuel t st' with
         | (Except.error e, st2) => (Except.error e, st2)
         | (Except.ok v, st2) => fnLoop fuel name (acc ++ [v]) st2) := rfl

theorem consumeAListOfRules_zero (st : PState) :
    consumeAListOfRules 0 st = (Except.error fuelMsg, st) := rfl

theorem consumeAListOfRules_eq (fuel : Nat) (st : PState) :
    consumeAListOfRules (fuel+1) st = lorLoop fuel [] st := rfl

theorem lorLoop_zero (acc : List RuleR) (st : PState) :
    lorLoop 0 acc st = (Except.error fuelMsg, st) := rfl

theorem lorLoop_eq (fuel : Nat) (acc : List RuleR) (st : PState) :
    lorLoop (fuel+1) acc st =
    (match consumeATokenP st with
     | (Except.error e, st') => (Except.error e, st')
     | (Except.ok none, st') => (Except.ok acc, st')
     | (Except.ok (some t), st') =>
       if isStrTok t [' '] then lorLoop fuel acc st'
       else if isStrTok t ("<!--".toList) ∨ isStrTok t ("-->".toList) then
         if st'.topLevel then lorLoop fuel acc st'
         else
           match consumeAQualifiedRule fuel t st' with
           | (Except.error e, st2) => (Except.error e, st2)
           | (Except.ok (some r), st2) => lorLoop fuel (acc ++ [r]) st2
           | (Except.ok none, st2) => lorLoop fuel acc st2
       else
         match t with
         | .atKeyword _ nm =>
           match consumeAnAtRule fuel nm st' with
           | (Except.error e, st2) => (Except.error e, st2)
           | (Except.ok r, st2) => lorLoop fuel (acc ++ [RuleR.at r]) st2
         | _ =>
           match consumeAQualifiedRule fuel t st' with
           | (Except.error e, st2) => (Except.error e, st2)
           | (Except.ok (some r), st2) => lorLoop fuel (acc ++ [r]) st2
           | (Except.ok none, st2) => lorLoop fuel acc st2) := rfl

theorem consumeAnAtRule_zero (nm : Str) (st : PState) :
    consumeAnAtRule 0 nm st = (Except.error fuelMsg, st) := rfl

theorem consumeAnAtRule_eq (fuel : Nat) (nm : Str) (st : PState) :
    consumeAnAtRule (fuel+1) nm st = atLoop fuel nm [] st := rfl

theorem atLoop_zero (nm : Str) (prelude : List Tok) (st : PState) :
    atLoop 0 nm prelude st = (Except.error fuelMsg, st) := rfl

theorem atLoop_eq (fuel : Nat) (nm : Str) (prelude : List Tok) (st : PState) :
    atLoop (fuel+1) nm prelude st =
    (match consumeATokenP st with
     | (Except.error e, st') => (Except.error e, st')
     | (Except.ok none, st') =>
       (Except.ok { name := nm, prelude := prelude, block := none, position := none }, st')
     | (Except.ok (some t), st') =>
       if isStrTok t [';'] then
         (Except.ok { name := nm, prelude := prelude, block := none, position := none }, st')
       else if isStrTok t ['{'] then
         match consumeASimpleBlock fuel .brace st' with
         | (Except.error e, st2) => (Except.error e, st2)
         | (Except.ok blk, st2) =>
           (Except.ok { name := nm, prelude := prelude, block := some blk, position := none },
            st2)
       else
         match t with
         | .simpleBlock .brace _ =>
           (Except.ok { name := nm, prelude := prelude, block := some t, position := none },
            st')
         | _ =>
           match consumeAComponentValue fuel t st' with
           | (Except.error e, st2) => (Except.error e, st2)
           | (Except.ok v, st2) => atLoop fuel nm (prelude ++ [v]) st2) := rfl

theorem consumeAQualifiedRule_zero (seed : Tok) (st : PState) :
    consumeAQualifiedRule 0 seed st = (Except.error fuelMsg, st) := rfl

theorem consumeAQualifiedRule_eq (fuel : Nat) (seed : Tok) (st : PState) :
    consumeAQualifiedRule (fuel+1) seed st = qrLoop fuel [] seed st := rfl

/-- With the base token source active, `consumeAToken` keeps the base source
and only ever returns tokens straight out of the tokenizer — which emits no
`SimpleBlock` or `Function` objects. -/
theorem consumeATokenP_base {st : PState} (hb : st.source = .base) :
    ∀ (r : Res (Option Tok)) (st' : PState), consumeATokenP st = (r, st') →
    st'.source = .base ∧ ∀ t, r = Except.ok (some t) → TokFlat t := by
  intro r st' h
  unfold consumeATokenP at h
  rw [hb] at h
  cases htk : tokStep st.text st.textIdx with
  | tok t j n =>
    rw [htk] at h
    simp only [Prod.mk.injEq] at h
    constructor
    · rw [← h.2]
    · intro t' ht'
      rw [← h.1] at ht'
      simp only [Except.ok.injEq, Option.some.injEq] at ht'
      rw [← ht']
      exact (dispatch1_tok st.text j t n (tokStep_tok htk)).1
  | halt j n =>
    rw [htk] at h
    simp only [Prod.mk.injEq] at h
    constructor
    · rw [← h.2]
    · intro t' ht'
      rw [← h.1] at ht'
      exact absurd ht' (by simp)
  | threw j n =>
    rw [htk] at h
    simp only [Prod.mk.injEq] at h
    constructor
    · rw [← h.2]
    · intro t' ht'
      rw [← h.1] at ht'
      exact absurd ht' (by simp)

end CssJs

namespace CssJs

/-- Invariant of `consumeAComponentValue` under the base token source: the
result is balanced, is a plain `"x"` token only if the input was that same
token, and the source stays base. -/
def CVinv (fuel : Nat) : Prop :=
  ∀ (t : Tok) (st : PState) (v : Tok) (st' : PState),
    st.source = .base → Balanced t →
    consumeAComponentValue fuel t st = (Except.ok v, st') →
    Balanced v ∧ (∀ s', isStrTok v s' = true → isStrTok t s' = true) ∧ st'.source = .base

/-- Invariant of `consumeASimpleBlock` under the base source. -/
def SBinv (fuel : Nat) : Prop :=
  ∀ (a : Assoc) (st : PState) (v : Tok) (st' : PState),
    st.source = .base → consumeASimpleBlock fuel a st = (Except.ok v, st') →
    Balanced v ∧ (∀ s', isStrTok v s' = false) ∧ st'.source = .base

/-- Invariant of `sbLoop` under the base source. -/
def SBLinv (fuel : Nat) : Prop :=
  ∀ (a : Assoc) (acc : List Tok) (st : PState) (v : Tok) (st' : PState),
    st.source = .base → (∀ x ∈ acc, Balanced x) →
    (∀ x ∈ acc, isStrTok x [closeChar a] = false) →
    sbLoop fuel a acc st = (Except.ok v, st') →
    Balanced v ∧ (∀ s', isStrTok v s' = false) ∧ st'.source = .base

/-- Invariant of `consumeAFunction` under the base source. -/
def FNinv (fuel : Nat) : Prop :=
  ∀ (name : Str) (st : PState) (v : Tok) (st' : PState),
    st.source = .base → consumeAFunction fuel name st = (Except.ok v, st') →
    Balanced v ∧ (∀ s', isStrTok v s' = false) ∧ st'.source = .base

/-- Invariant of `fnLoop` under the base source. -/
def FNLinv (fuel : Nat) : Prop :=
  ∀ (name : Str) (acc : List Tok) (st : PState) (v : Tok) (st' : PState),
    st.source = .base → (∀ x ∈ acc, Balanced x) →
    fnLoop fuel name acc st = (Except.ok v, st') →
    Balanced v ∧ (∀ s', isStrTok v s' = false) ∧ st'.source = .base

/-- Invariant of `consumeAListOfRules` under the base source. -/
def LORinv (fuel : Nat) : Prop :=
  ∀ (st : PState) (rules : List RuleR) (st' : PState),
    st.source = .base → consumeAListOfRules fuel st = (Except.ok rules, st') →
    (∀ x ∈ rules, RuleBalanced x) ∧ st'.source = .base

/-- Invariant of `lorLoop` under the base source. -/
def LORLinv (fuel : Nat) : Prop :=
  ∀ (acc : List RuleR) (st : PState) (rules : List RuleR) (st' : PState),
    st.source = .base → (∀ x ∈ acc, RuleBalanced x) →
    lorLoop fuel acc st = (Except.ok rules, st') →
    (∀ x ∈ rules, RuleBalanced x) ∧ st'.source = .base

/-- Invariant of `consumeAnAtRule` under the base source. -/
def ATinv (fuel : Nat) : Prop :=
  ∀ (nm : Str) (st : PState) (r : AtRuleR) (st' : PState),
    st.source = .base → consumeAnAtRule fuel nm st = (Except.ok r, st') →
    RuleBalanced (.at r) ∧ st'.source = .base

/-- Invariant of `atLoop` under the base source. -/
def ATLinv (fuel : Nat) : Prop :=
  ∀ (nm : Str) (prelude : List Tok) (st : PState) (r : AtRuleR) (st' : PState),
    st.source = .base → (∀ x ∈ prelude, Balanced x) →
    atLoop fuel nm prelude st = (Except.ok r, st') →
    RuleBalanced (.at r) ∧ st'.source = .base

/-- Invariant of `consumeAQualifiedRule` under the base source. -/
def QRinv (fuel : Nat) : Prop :=
  ∀ (seed : Tok) (st : PState) (r : Option RuleR) (st' : PState),
    st.source = .base → Balanced seed →
    consumeAQualifiedRule fuel seed st = (Except.ok r, st') →
    (∀ ru, r = some ru → RuleBalanced ru) ∧ st'.source = .base

/-- Invariant of `qrLoop` under the base source. -/
def QRLinv (fuel : Nat) : Prop :=
  ∀ (prelude : List Tok) (cur : Tok) (st : PState) (r : Option RuleR) (st' : PState),
    st.source = .base → (∀ x ∈ prelude, Balanced x) → Balanced cur →
    qrLoop fuel prelude cur st = (Except.ok r, st') →
    (∀ ru, r = some ru → RuleBalanced ru) ∧ st'.source = .base

theorem parserBalancedInv : ∀ fuel : Nat, CVinv fuel ∧ SBinv fuel ∧ SBLinv fuel ∧
    FNinv fuel ∧ FNLinv fuel ∧ LORinv fuel ∧ LORLinv fuel ∧ ATinv fuel ∧ ATLinv fuel ∧
    QRinv fuel ∧ QRLinv fuel := by
  intro fuel
  induction fuel with
  | zero =>
    refine ⟨?_, ?_, ?_, ?_, ?_, ?_, ?_, ?_, ?_, ?_, ?_⟩
    · intro t st v st' _ _ h
      rw [consumeAComponentValue_zero] at h
      exact absurd h (by simp)
    · intro a st v st' _ h
      rw [consumeASimpleBlock_zero] at h
      exact absurd h (by simp)
    · intro a acc st v st' _ _ _ h
      rw [sbLoop_zero] at h
      exact absurd h (by simp)
    · intro name st v st' _ h
      rw [consumeAFunction_zero] at h
      exact absurd h (by simp)
    · intro name acc st v st' _ _ h
      rw [fnLoop_zero] at h
      exact absurd h (by simp)
    · intro st rules st' _ h
      rw [consumeAListOfRules_zero] at h
      exact absurd h (by simp)
    · intro acc st rules st' _ _ h
      rw [lorLoop_zero] at h
      exact absurd h (by simp)
    · intro nm st r st' _ h
      rw [consumeAnAtRule_zero] at h
      exact absurd h (by simp)
    · intro nm prelude st r st' _ _ h
      rw [atLoop_zero] at h
      exact absurd h (by simp)
    · intro seed st r st' _ _ h
      rw [consumeAQualifiedRule_zero] at h
      exact absurd h (by simp)
    · intro prelude cur st r st' _ _ _ h
      rw [qrLoop_zero] at h
      exact absurd h (by simp)
  | succ fuel ih =>
    obtain ⟨ihCV, ihSB, ihSBL, ihFN, ihFNL, ihLOR, ihLORL, ihAT, ihATL, ihQR, ihQRL⟩ := ih
    refine ⟨?_, ?_, ?_, ?_, ?_, ?_, ?_, ?_, ?_, ?_, ?_⟩
    · -- consumeAComponentValue
      intro t st v st' hb hbt h
      rw [consumeAComponentValue_eq] at h
      split at h
      · rename_i cs
        by_cases h1 : cs = ['{']
        · rw [if_pos h1] at h
          obtain ⟨hBv, hNS, hsrc⟩ := ihSB .brace st v st' hb h
          refine ⟨hBv, ?_, hsrc⟩
          intro s' hs
          rw [hNS s'] at hs
          exact absurd hs Bool.false_ne_true
        · rw [if_neg h1] at h
          by_cases h2 : cs = ['[']
          · rw [if_pos h2] at h
            obtain ⟨hBv, hNS, hsrc⟩ := ihSB .brack st v st' hb h
            refine ⟨hBv, ?_, hsrc⟩
            intro s' hs
            rw [hNS s'] at hs
            exact absurd hs Bool.false_ne_true
          · rw [if_neg h2] at h
            by_cases h3 : cs = ['(']
            · rw [if_pos h3] at h
              obtain ⟨hBv, hNS, hsrc⟩ := ihSB .paren st v st' hb h
              refine ⟨hBv, ?_, hsrc⟩
              intro s' hs
              rw [hNS s'] at hs
              exact absurd hs Bool.false_ne_true
            · rw [if_neg h3] at h
              simp only [Prod.mk.injEq, Except.ok.injEq] at h
              refine ⟨?_, ?_, ?_⟩
              · rw [← h.1]
                exact hbt
              · intro s' hs
                rw [← h.1] at hs
                exact hs
              · rw [← h.2]
                exact hb
      · rename_i src0 name0
        obtain ⟨hBv, hNS, hsrc⟩ := ihFN name0 st v st' hb h
        refine ⟨hBv, ?_, hsrc⟩
        intro s' hs
        rw [hNS s'] at hs
        exact absurd hs Bool.false_ne_true
      · simp only [Prod.mk.injEq, Except.ok.injEq] at h
        refine ⟨?_, ?_, ?_⟩
        · rw [← h.1]
          exact hbt
        · intro s' hs
          rw [← h.1] at hs
          exact hs
        · rw [← h.2]
          exact hb
    · -- consumeASimpleBlock
      intro a st v st' hb h
      rw [consumeASimpleBlock_eq] at h
      exact ihSBL a [] st v st' hb (by intro x hx; exact absurd hx (List.not_mem_nil x))
        (by intro x hx; exact absurd hx (List.not_mem_nil x)) h
    · -- sbLoop
      intro a acc st v st' hb hbal hncl h
      rw [sbLoop_eq] at h
      rcases hT : consumeATokenP st with ⟨rt, st1⟩
      rw [hT] at h
      obtain ⟨hsrc1, hflat⟩ := consumeATokenP_base hb rt st1 hT
      cases rt with
      | error e => exact absurd h (by simp)
      | ok ot =>
        cases ot with
        | none =>
          simp only [Prod.mk.injEq, Except.ok.injEq] at h
          refine ⟨?_, ?_, ?_⟩
          · rw [← h.1]
            exact Balanced.block a acc hbal
              (fun x hx => by rw [hncl x hx]; exact Bool.false_ne_true)
          · intro s'
            rw [← h.1]
            rfl
          · rw [← h.2]
            exact hsrc1
        | some t =>
          dsimp only at h
          have hft := hflat t rfl
          by_cases hcl : isStrTok t [closeChar a] = true
          · rw [if_pos hcl] at h
            simp only [Prod.mk.injEq, Except.ok.injEq] at h
            refine ⟨?_, ?_, ?_⟩
            · rw [← h.1]
              exact Balanced.block a acc hbal
                (fun x hx => by rw [hncl x hx]; exact Bool.false_ne_true)
            · intro s'
              rw [← h.1]
              rfl
            · rw [← h.2]
              exact hsrc1
          · rw [if_neg hcl] at h
            rcases hV : consumeAComponentValue fuel t st1 with ⟨rv, st2⟩
            rw [hV] at h
            cases rv with
            | error e => exact absurd h (by simp)
            | ok v0 =>
              obtain ⟨hBv, hSv, hsrc2⟩ := ihCV t st1 v0 st2 hsrc1 (Balanced.flat t hft) hV
              refine ihSBL a (acc ++ [v0]) st2 v st' hsrc2 ?_ ?_ h
              · intro x hx
                rcases List.mem_append.mp hx with hx | hx
                · exact hbal x hx
                · rw [List.mem_singleton.mp hx]
                  exact hBv
              · intro x hx
                rcases List.mem_append.mp hx with hx | hx
                · exact hncl x hx
                · rw [List.mem_singleton.mp hx]
                  cases hx2 : isStrTok v0 [closeChar a] with
                  | false => rfl
                  | true => exact absurd (hSv _ hx2) hcl
    · -- consumeAFunction
      intro name st v st' hb h
      rw [consumeAFunction_eq] at h
      exact ihFNL name [] st v st' hb (by intro x hx; exact absurd hx (List.not_mem_nil x)) h
    · -- fnLoop
      intro name acc st v st' hb hbal h
      rw [fnLoop_eq] at h
      rcases hT : consumeATokenP st with ⟨rt, st1⟩
      rw [hT] at h
      obtain ⟨hsrc1, hflat⟩ := consumeATokenP_base hb rt st1 hT
      cases rt with
      | error e => exact absurd h (by simp)
      | ok ot =>
        cases ot with
        | none =>
          simp only [Prod.mk.injEq, Except.ok.injEq] at h
          refine ⟨?_, ?_, ?_⟩
          · rw [← h.1]
            exact Balanced.fn name acc hbal
          · intro s'
            rw [← h.1]
            rfl
          · rw [← h.2]
            exact hsrc1
        | some t =>
          dsimp only at h
          have hft := hflat t rfl
          by_cases hcl : isStrTok t [')'] = true
          · rw [if_pos hcl] at h
            simp only [Prod.mk.injEq, Except.ok.injEq] at h
            refine ⟨?_, ?_, ?_⟩
            · rw [← h.1]
              exact Balanced.fn name acc hbal
            · intro s'
              rw [← h.1]
              rfl
            · rw [← h.2]
              exact hsrc1
          · rw [if_neg hcl] at h
            rcases hV : consumeAComponentValue fuel t st1 with ⟨rv, st2⟩
            rw [hV] at h
            cases rv with
            | error e => exact absurd h (by simp)
            | ok v0 =>
              obtain ⟨hBv, hSv, hsrc2⟩ := ihCV t st1 v0 st2 hsrc1 (Balanced.flat t hft) hV
              refine ihFNL name (acc ++ [v0]) st2 v st' hsrc2 ?_ h
              intro x hx
              rcases List.mem_append.mp hx with hx | hx
              · exact hbal x hx
              · rw [List.mem_singleton.mp hx]
                exact hBv
    · -- consumeAListOfRules
      intro st rules st' hb h
      rw [consumeAListOfRules_eq] at h
      exact ihLORL [] st rules st' hb (by intro x hx; exact absurd hx (List.not_mem_nil x)) h
    · -- lorLoop
      intro acc st rules st' hb hacc h
      rw [lorLoop_eq] at h
      rcases hT : consumeATokenP st with ⟨rt, st1⟩
      rw [hT] at h
      obtain ⟨hsrc1, hflat⟩ := consumeATokenP_base hb rt st1 hT
      cases rt with
      | error e => exact absurd h (by simp)
      | ok ot =>
        cases ot with
        | none =>
          simp only [Prod.mk.injEq, Except.ok.injEq] at h
          refine ⟨?_, ?_⟩
          · rw [← h.1]
            exact hacc
          · rw [← h.2]
            exact hsrc1
        | some t =>
          dsimp only at h
          have hft := hflat t rfl
          by_cases h1 : isStrTok t [' '] = true
          · rw [if_pos h1] at h
            exact ihLORL acc st1 rules st' hsrc1 hacc h
          · rw [if_neg h1] at h
            by_cases h2 : isStrTok t ("<!--".toList) = true ∨ isStrTok t ("-->".toList) = true
            · rw [if_pos h2] at h
              by_cases h3 : st1.topLevel = true
              · rw [if_pos h3] at h
                exact ihLORL acc st1 rules st' hsrc1 hacc h
              · rw [if_neg h3] at h
                rcases hQ : consumeAQualifiedRule fuel t st1 with ⟨rq, st2⟩
                rw [hQ] at h
                cases rq with
                | error e => exact absurd h (by simp)
                | ok oq =>
                  obtain ⟨hrb, hsrc2⟩ := ihQR t st1 oq st2 hsrc1 (Balanced.flat t hft) hQ
                  cases oq with
                  | some ru =>
                    refine ihLORL _ st2 rules st' hsrc2 ?_ h
                    intro x hx
                    rcases List.mem_append.mp hx with hx | hx
                    · exact hacc x hx
                    · rw [List.mem_singleton.mp hx]
                      exact hrb ru rfl
                  | none => exact ihLORL acc st2 rules st' hsrc2 hacc h
            · rw [if_neg h2] at h
              split at h
              · rename_i src0 nm
                rcases hA : consumeAnAtRule fuel nm st1 with ⟨ra, st2⟩
                rw [hA] at h
                cases ra with
                | error e => exact absurd h (by simp)
                | ok ar =>
                  obtain ⟨hrb, hsrc2⟩ := ihAT nm st1 ar st2 hsrc1 hA
                  refine ihLORL _ st2 rules st' hsrc2 ?_ h
                  intro x hx
                  rcases List.mem_append.mp hx with hx | hx
                  · exact hacc x hx
                  · rw [List.mem_singleton.mp hx]
                    exact hrb
              · rcases hQ : consumeAQualifiedRule fuel t st1 with ⟨rq, st2⟩
                rw [hQ] at h
                cases rq with
                | error e => exact absurd h (by simp)
                | ok oq =>
                  obtain ⟨hrb, hsrc2⟩ := ihQR t st1 oq st2 hsrc1 (Balanced.flat t hft) hQ
                  cases oq with
                  | some ru =>
                    refine ihLORL _ st2 rules st' hsrc2 ?_ h
                    intro x hx
                    rcases List.mem_append.mp hx with hx | hx
                    · exact hacc x hx
                    · rw [List.mem_singleton.mp hx]
                      exact hrb ru rfl
                  | none => exact ihLORL acc st2 rules st' hsrc2 hacc h
    · -- consumeAnAtRule
      intro nm st r st' hb h
      rw [consumeAnAtRule_eq] at h
      exact ihATL nm [] st r st' hb (by intro x hx; exact absurd hx (List.not_mem_nil x)) h
    · -- atLoop
      intro nm prelude st r st' hb hbal h
      rw [atLoop_eq] at h
      rcases hT : consumeATokenP st with ⟨rt, st1⟩
      rw [hT] at h
      obtain ⟨hsrc1, hflat⟩ := consumeATokenP_base hb rt st1 hT
      cases rt with
      | error e => exact absurd h (by simp)
      | ok ot =>
        cases ot with
        | none =>
          simp only [Prod.mk.injEq, Except.ok.injEq] at h
          refine ⟨?_, ?_⟩
          · rw [← h.1]
            exact ⟨hbal, fun b hb' => by cases hb'⟩
          · rw [← h.2]
            exact hsrc1
        | some t =>
          dsimp only at h
          have hft := hflat t rfl
          by_cases h1 : isStrTok t [';'] = true
          · rw [if_pos h1] at h
            simp only [Prod.mk.injEq, Except.ok.injEq] at h
            refine ⟨?_, ?_⟩
            · rw [← h.1]
              exact ⟨hbal, fun b hb' => by cases hb'⟩
            · rw [← h.2]
              exact hsrc1
          · rw [if_neg h1] at h
            by_cases h2 : isStrTok t ['{'] = true
            · rw [if_pos h2] at h
              rcases hB : consumeASimpleBlock fuel .brace st1 with ⟨rb, st2⟩
              rw [hB] at h
              cases rb with
              | error e => exact absurd h (by simp)
              | ok blk =>
                obtain ⟨hBb, _, hsrc2⟩ := ihSB .brace st1 blk st2 hsrc1 hB
                simp only [Prod.mk.injEq, Except.ok.injEq] at h
                refine ⟨?_, ?_⟩
                · rw [← h.1]
                  exact ⟨hbal, fun b hb' => by cases hb'; exact hBb⟩
                · rw [← h.2]
                  exact hsrc2
            · rw [if_neg h2] at h
              split at h
              · exact False.elim hft
              · rcases hV : consumeAComponentValue fuel t st1 with ⟨rv, st2⟩
                rw [hV] at h
                cases rv with
                | error e => exact absurd h (by simp)
                | ok v0 =>
                  obtain ⟨hBv, _, hsrc2⟩ := ihCV t st1 v0 st2 hsrc1 (Balanced.flat t hft) hV
                  refine ihATL nm _ st2 r st' hsrc2 ?_ h
                  intro x hx
                  rcases List.mem_append.mp hx with hx | hx
                  · exact hbal x hx
                  · rw [List.mem_singleton.mp hx]
                    exact hBv
    · -- consumeAQualifiedRule
      intro seed st r st' hb hbc h
      rw [consumeAQualifiedRule_eq] at h
      exact ihQRL [] seed st r st' hb (by intro x hx; exact absurd hx (List.not_mem_nil x))
        hbc h
    · -- qrLoop
      intro prelude cur st r st' hb hbal hbc h
      rw [qrLoop_eq] at h
      by_cases h1 : isStrTok cur ['{'] = true
      · rw [if_pos h1] at h
        rcases hB : consumeASimpleBlock fuel .brace st with ⟨rb, st2⟩
        rw [hB] at h
        cases rb with
        | error e => exact absurd h (by simp)
        | ok blk =>
          obtain ⟨hBb, _, hsrc2⟩ := ihSB .brace st blk st2 hb hB
          simp only [Prod.mk.injEq, Except.ok.injEq] at h
          refine ⟨?_, ?_⟩
          · intro ru hru
            rw [← h.1] at hru
            injection hru with hru
            rw [← hru]
            exact ⟨hbal, hBb⟩
          · rw [← h.2]
            exact hsrc2
      · rw [if_neg h1] at h
        split at h
        · simp only [Prod.mk.injEq, Except.ok.injEq] at h
          refine ⟨?_, ?_⟩
          · intro ru hru
            rw [← h.1] at hru
            injection hru with hru
            rw [← hru]
            exact ⟨hbal, hbc⟩
          · rw [← h.2]
            exact hb
        · rcases hV : consumeAComponentValue fuel cur st with ⟨rv, st2⟩
          rw [hV] at h
          cases rv with
          | error e => exact absurd h (by simp)
          | ok v0 =>
            obtain ⟨hBv, _, hsrc2⟩ := ihCV cur st v0 st2 hb hbc hV
            dsimp only at h
            rcases hT : consumeATokenP st2 with ⟨rt, st3⟩
            rw [hT] at h
            obtain ⟨hsrc3, hflat⟩ := consumeATokenP_base hsrc2 rt st3 hT
            cases rt with
            | error e => exact absurd h (by simp)
            | ok ot =>
              cases ot with
              | none =>
                simp only [Prod.mk.injEq, Except.ok.injEq] at h
                refine ⟨?_, ?_⟩
                · intro ru hru
                  rw [← h.1] at hru
                  cases hru
                · rw [← h.2]
                  exact hsrc3
              | some t =>
                have hft := hflat t rfl
                refine ihQRL (prelude ++ [v0]) t st3 r st' hsrc3 ?_ (Balanced.flat t hft) h
                intro x hx
                rcases List.mem_append.mp hx with hx | hx
                · exact hbal x hx
                · rw [List.mem_singleton.mp hx]
                  exact hBv

end CssJs

namespace CssJs

/-- C6 (amended): every simple block the parser builds is balanced — its
values never contain the matching closing token, recursively — so every rule
of a successful `parseAStylesheet` is balanced; and end of input closes a
still-open block implicitly, with no error.  (Unmatched top-level closers
are *not* discarded: they seed a qualified rule — see the counterexample.) -/
theorem c6_balance_amended :
    (∀ (text : Str) (sheet : StylesheetR),
        (parseAStylesheet text).1 = Except.ok sheet →
        ∀ r ∈ sheet.rules, RuleBalanced r) ∧
    (∀ (fuel : Nat) (a : Assoc) (st st'' : PState),
        consumeATokenP st = (Except.ok none, st'') →
        consumeASimpleBlock (fuel + 2) a st = (Except.ok (.simpleBlock a []), st'')) := by
  constructor
  · intro text sheet h
    rcases hP : parseAStylesheet text with ⟨r1, st1⟩
    rw [hP] at h
    dsimp only at h
    subst h
    unfold parseAStylesheet at hP
    rcases hC : consumeAListOfRules (pFuel text) (resetSt text) with ⟨rc, st2⟩
    rw [hC] at hP
    cases rc with
    | error e => exact absurd hP (by simp)
    | ok rules =>
      simp only [Prod.mk.injEq, Except.ok.injEq] at hP
      have hinv := (parserBalancedInv (pFuel text)).2.2.2.2.2.1 (resetSt text) rules st2 rfl hC
      intro r hr
      rw [← hP.1] at hr
      exact hinv.1 r hr
  · intro fuel a st st'' hT
    show consumeASimpleBlock (fuel + 1 + 1) a st = (Except.ok (.simpleBlock a []), st'')
    rw [consumeASimpleBlock_eq, sbLoop_eq, hT]

/-- Witness for C6: the rule parsed from `a{}` is balanced, and on empty
input a freshly opened parenthesis block closes at end of input as an empty
block with no error. -/
theorem c6_witness :
    RuleBalanced (RuleR.qualified [Tok.ident ['a'] ['a']] (Tok.simpleBlock .brace []) none) ∧
    consumeASimpleBlock 2 Assoc.paren (resetSt []) =
      (Except.ok (Tok.simpleBlock Assoc.paren []), resetSt []) :=
  ⟨c6_balance_amended.1 ("a{}".toList)
      { rules := [RuleR.qualified [Tok.ident ['a'] ['a']] (Tok.simpleBlock .brace []) none],
        parsingErrors := [] }
      rfl _ (List.mem_singleton.mpr rfl),
    c6_balance_amended.2 0 Assoc.paren (resetSt []) (resetSt []) rfl⟩

end CssJs
